import Mathlib

/-!
Verification development for the DSA_OccluNet data-curation utilities
(`add_study_key.py` and `check_files.py`).

The Python sources are shallowly embedded below: cell values are an
inductive type (`Value`), a pandas DataFrame is a column list plus a row
list (`Dataset`), the filesystem is a Boolean predicate on paths, and the
UUID generator is an explicit supply of fresh strings indexed by a draw
counter.
-/

set_option maxRecDepth 10000

namespace OccluNet

/-! ## Cell values and the shared `normalize_value` helper -/

/-- A spreadsheet cell value as seen by the Python scripts: `None`
(absent), a floating-point NaN marker, or any other value represented by
its `str(...)` form. -/
inductive Value where
  | absent : Value
  | nanFloat : Value
  | text : String → Value
deriving DecidableEq

/-- Python `str.strip` on the underlying character list: drop whitespace
from the front, then from the back. -/
def stripList (l : List Char) : List Char :=
  ((l.dropWhile Char.isWhitespace).reverse.dropWhile Char.isWhitespace).reverse

/-- Python `str.strip`. -/
def pyStrip (s : String) : String :=
  ⟨stripList s.data⟩

/-- Python `str.lower` (character-wise lowercasing). -/
def pyLower (s : String) : String :=
  ⟨s.data.map Char.toLower⟩

/-- `normalize_value` from both scripts: `None` and float NaN become `""`;
otherwise the value's string form is stripped and the literal text
`"nan"` (case-insensitive) becomes `""`. -/
def normalize_value : Value → String
  | Value.absent => ""
  | Value.nanFloat => ""
  | Value.text s =>
    let text := pyStrip s
    if pyLower text = "nan" then "" else text

/-- A string is stable under `normalize_value` when wrapping it as a text
cell and normalizing returns it unchanged. -/
def stableStr (v : String) : Prop :=
  normalize_value (Value.text v) = v

/-! ## Dataset model (pandas DataFrame as column names plus rows) -/

/-- A loaded spreadsheet: ordered column names and rows of cells. -/
structure Dataset where
  columns : List String
  rows : List (List Value)
deriving DecidableEq

/-- A dataset is well-formed (rectangular) when every row has exactly one
cell per column, as pandas guarantees for a loaded sheet. -/
def Dataset.WF (d : Dataset) : Prop :=
  ∀ r ∈ d.rows, r.length = d.columns.length

/-- Index of the first column with the given name, if any. -/
def colIndex : List String → String → Option Nat
  | [], _ => none
  | x :: xs, c => if x = c then some 0 else (colIndex xs c).map (· + 1)

/-- `row.get(c)`: the cell of `row` under column `c`, `None`-defaulting
when the column is absent. -/
def getCell (cols : List String) (row : List Value) (c : String) : Value :=
  match colIndex cols c with
  | some i => row.getD i Value.absent
  | none => Value.absent

/-- `df.at[idx, c] = v`: replace the cell of `row` under column `c`. -/
def setCell (cols : List String) (row : List Value) (c : String) (v : Value) :
    List Value :=
  match colIndex cols c with
  | some i => row.set i v
  | none => row

/-- Normalized accession of a row. -/
def normAcc (cols : List String) (row : List Value) : String :=
  normalize_value (getCell cols row "Accession")

/-! ## KeyAssigner (`add_study_key.py`) -/

/-- The in-memory `accession_to_key` dict, as an association list in
insertion order. -/
abbrev KeyMap := List (String × String)

/-- Dictionary lookup. -/
def kmFind : KeyMap → String → Option String
  | [], _ => none
  | (a, k) :: m, b => if a = b then some k else kmFind m b

/-- `dict.setdefault`: insert only when the key is absent. -/
def kmSetdefault (m : KeyMap) (a k : String) : KeyMap :=
  match kmFind m a with
  | some _ => m
  | none => m ++ [(a, k)]

/-- One step of pass 1 of `main`: harvest an existing key from one row. -/
def harvestRow (keyCol : String) (cols : List String) (m : KeyMap)
    (row : List Value) : KeyMap :=
  let accession := normAcc cols row
  if accession = "" then m
  else
    let existing_key := normalize_value (getCell cols row keyCol)
    if existing_key = "" then m
    else kmSetdefault m accession existing_key

/-- Pass 1 of `main`: build `accession_to_key` from existing keys. -/
def harvest (keyCol : String) (cols : List String) (rows : List (List Value)) :
    KeyMap :=
  rows.foldl (harvestRow keyCol cols) []

/-- One step of pass 2 of `main`: backfill a missing key (drawing a fresh
identifier from `gen` at the current counter) and write the mapped key
into the row. -/
def fillRow (gen : Nat → String) (keyCol : String) (cols : List String)
    (st : KeyMap × Nat) (row : List Value) : (KeyMap × Nat) × List Value :=
  let accession := normAcc cols row
  if accession = "" then (st, row)
  else
    let m := if kmFind st.1 accession = none
      then kmSetdefault st.1 accession (gen st.2) else st.1
    let n := if kmFind st.1 accession = none then st.2 + 1 else st.2
    ((m, n), setCell cols row keyCol (Value.text ((kmFind m accession).getD "")))

/-- Pass 2 of `main` over all rows, threading the map and the fresh-name
counter. -/
def fillRows (gen : Nat → String) (keyCol : String) (cols : List String) :
    KeyMap × Nat → List (List Value) → (KeyMap × Nat) × List (List Value)
  | st, [] => (st, [])
  | st, r :: rs =>
    let p := fillRow gen keyCol cols st r
    let q := fillRows gen keyCol cols p.1 rs
    (q.1, p.2 :: q.2)

/-- `if key_col not in df.columns: df[key_col] = ""`. -/
def ensureKeyCol (d : Dataset) (keyCol : String) : Dataset :=
  if keyCol ∈ d.columns then d
  else { columns := d.columns ++ [keyCol]
         rows := d.rows.map (fun r => r ++ [Value.text ""]) }

/-- The key-assignment pass of `main` (after the `Accession` check): ensure
the key column, harvest existing keys, then backfill and write. -/
def assign_keys (gen : Nat → String) (d : Dataset) (keyCol : String) : Dataset :=
  let e := ensureKeyCol d keyCol
  let m := harvest keyCol e.columns e.rows
  { columns := e.columns
    rows := (fillRows gen keyCol e.columns (m, 0) e.rows).2 }

/-- `main` of `add_study_key.py` on a loaded dataset: the `Accession`
presence check, then the two passes; the updated dataset stands for the
rewritten Excel file, and an error result models the uncaught `KeyError`
raised before any row is visited and before anything is written. -/
def addMain (gen : Nat → String) (d : Dataset) (keyCol : String) :
    Except String Dataset :=
  if "Accession" ∈ d.columns then Except.ok (assign_keys gen d keyCol)
  else Except.error "Missing required column: Accession"

/-- The key map as it stands at the end of pass 2 of a run. -/
def finalKeyMap (gen : Nat → String) (d : Dataset) (keyCol : String) : KeyMap :=
  (fillRows gen keyCol (ensureKeyCol d keyCol).columns
    (harvest keyCol (ensureKeyCol d keyCol).columns (ensureKeyCol d keyCol).rows, 0)
    (ensureKeyCol d keyCol).rows).1.1

/-- The per-row rewrite that pass 2 performs, expressed against a fixed
key map: rows with a blank accession are untouched, every other row gets
the mapped key written into the key column. -/
def stepWith (keyCol : String) (cols : List String) (M : KeyMap)
    (r : List Value) : List Value :=
  if normAcc cols r = "" then r
  else setCell cols r keyCol (Value.text ((kmFind M (normAcc cols r)).getD ""))

/-- The key a row offers for accession `a` during pass 1: its normalized
key cell, when the row's accession is `a` and the key is non-empty. -/
def offerOf (keyCol : String) (cols : List String) (a : String)
    (r : List Value) : Option String :=
  if normAcc cols r = a then
    if normalize_value (getCell cols r keyCol) = "" then none
    else some (normalize_value (getCell cols r keyCol))
  else none

/-- The first non-empty normalized key found in row order among rows whose
normalized accession is `a`. -/
def firstOfferKey (keyCol : String) (cols : List String)
    (rows : List (List Value)) (a : String) : Option String :=
  rows.findSome? (offerOf keyCol cols a)

/-- Every value stored in a key map is non-empty and normalization
stable. -/
def kmGood (m : KeyMap) : Prop :=
  ∀ p ∈ m, p.2 ≠ "" ∧ stableStr p.2

/-- A row list is fully keyed: every row with a non-empty accession holds,
in the key column, a non-empty stable key shared by all rows with the same
accession. -/
def Keyed (keyCol : String) (cols : List String) (rows : List (List Value)) :
    Prop :=
  ∀ r ∈ rows, normAcc cols r ≠ "" →
    ∃ v, v ≠ "" ∧ stableStr v ∧ getCell cols r keyCol = Value.text v ∧
      ∀ r' ∈ rows, normAcc cols r' = normAcc cols r →
        getCell cols r' keyCol = Value.text v

/-! ## FileValidator (`check_files.py`) -/

/-- A filesystem path, as the list of its components. -/
abbrev Path := List String

/-- The filesystem, as existence of each path. -/
abbrev FS := Path → Bool

/-- `columns_to_check` from `main`. -/
def columns_to_check : List String :=
  ["AP_1", "AP_2", "AP_3", "Lateral_1", "Lateral_2", "Lateral_3"]

/-- `required_columns = (Accession, *columns_to_check)`. -/
def requiredColumnsList : List String :=
  "Accession" :: columns_to_check

/-- `ap_value.lower().endswith(".dcm")`. -/
def endsWithDcm (v : String) : Bool :=
  List.isSuffixOf ".dcm".data (pyLower v).data

/-- `candidate_paths` from `check_files.py`. -/
def candidate_paths (base : Path) (accession v : String) : List Path :=
  if endsWithDcm v then [base ++ [accession, v]]
  else [base ++ [accession, v ++ ".dcm"], base ++ [accession, v]]

/-- `dcm_display_path` from `check_files.py`. -/
def dcm_display_path (base : Path) (accession v : String) : Path :=
  if endsWithDcm v then base ++ [accession, v]
  else base ++ [accession, v ++ ".dcm"]

/-- `Path.name`: the final component. -/
def pathName (p : Path) : String := p.getLastD ""

/-- One output row (`out_row`): a Python dict from column name to string,
with fixed insertion order, as an association list. -/
abbrev OutRow := List (String × String)

/-- Dict assignment `out_row[c] = v` (the key is always present). -/
def orSet (r : OutRow) (c v : String) : OutRow :=
  r.map (fun p => if p.1 = c then (p.1, v) else p)

/-- Dict lookup `out_row.get(c)`, defaulting to `""`. -/
def orGet : OutRow → String → String
  | [], _ => ""
  | (a, v) :: r, c => if a = c then v else orGet r c

/-- The freshly initialized `out_row` of one record. -/
def initOutRow (accession : String) : OutRow :=
  ("Accession", accession) :: columns_to_check.map (fun c => (c, ""))

/-- The body of the inner `for column in columns_to_check` loop: state is
`(checked_count, error_count, out_row)`. -/
def checkColumn (fs : FS) (base : Path) (accession : String)
    (cols : List String) (row : List Value) (st : Nat × Nat × OutRow)
    (c : String) : Nat × Nat × OutRow :=
  let image_value := normalize_value (getCell cols row c)
  if image_value = "" then st
  else
    let paths := candidate_paths base accession image_value
    let display_name := pathName (dcm_display_path base accession image_value)
    if paths.any fs then (st.1 + 1, st.2.1, orSet st.2.2 c display_name)
    else (st.1 + 1, st.2.1 + 1, st.2.2)

/-- Accumulated state of the outer row loop of `main`. -/
structure CheckState where
  errorCount : Nat
  checkedCount : Nat
  outRows : List OutRow
deriving DecidableEq

/-- The body of the outer `for _, row in df.iterrows()` loop. -/
def processRow (fs : FS) (base : Path) (cols : List String) (st : CheckState)
    (row : List Value) : CheckState :=
  let accession := normAcc cols row
  if accession = "" then st
  else
    let t := columns_to_check.foldl (checkColumn fs base accession cols row)
      (st.checkedCount, st.errorCount, initOutRow accession)
    { errorCount := t.2.1, checkedCount := t.1, outRows := st.outRows ++ [t.2.2] }

/-- The fixed output column order of
`out_df[["Accession", "AP_1", ..., "Lateral_3"]]`. -/
def outHeader : List String :=
  ["Accession", "AP_1", "AP_2", "AP_3", "Lateral_1", "Lateral_2", "Lateral_3"]

/-- Outcome of a completed `check_files.py` run: the counters, the
collected output rows, the written CSV (header plus one line per out row,
absent when no row was collected), and the process exit status. -/
structure CheckOutcome where
  errorCount : Nat
  checkedCount : Nat
  outRows : List OutRow
  csv : Option (List (List String))
  exitCode : Nat
deriving DecidableEq

/-- The row loop and reporting tail of `main` (after the column check). -/
def validate (fs : FS) (base : Path) (d : Dataset) : CheckOutcome :=
  let st := d.rows.foldl (processRow fs base d.columns) ⟨0, 0, []⟩
  { errorCount := st.errorCount
    checkedCount := st.checkedCount
    outRows := st.outRows
    csv := if st.outRows.isEmpty then none
      else some (outHeader :: st.outRows.map (fun r => outHeader.map (orGet r)))
    exitCode := if st.errorCount = 0 then 0 else 1 }

/-- `missing = required_columns - set(df.columns)`. -/
def missingColumns (d : Dataset) : List String :=
  requiredColumnsList.filter (fun c => !(d.columns.contains c))

/-- `main` of `check_files.py` on a loaded dataset and filesystem: the
required-column check, then the validation loop; an error result models
the uncaught `KeyError` raised before any row is visited and before the
CSV is written. -/
def checkMain (fs : FS) (base : Path) (d : Dataset) :
    Except String CheckOutcome :=
  if missingColumns d = [] then Except.ok (validate fs base d)
  else Except.error "Missing required column(s)"

/-- Checked-entry contribution of one record: the number of image columns
with a non-empty normalized value, counted only when the accession is
non-empty. -/
def rowCheckedCount (cols : List String) (row : List Value) : Nat :=
  if normAcc cols row = "" then 0
  else columns_to_check.countP
    (fun c => decide (normalize_value (getCell cols row c) ≠ ""))

/-- The number of (record with non-empty accession, image column) pairs of
the dataset whose normalized value is non-empty. -/
def checkedCountSpec (d : Dataset) : Nat :=
  (d.rows.map (rowCheckedCount d.columns)).sum

/-- The effect of one inner-loop iteration on `out_row` alone. -/
def applyCol (fs : FS) (base : Path) (acc : String) (cols : List String)
    (row : List Value) (o : OutRow) (c : String) : OutRow :=
  let v := normalize_value (getCell cols row c)
  if v = "" then o
  else if (candidate_paths base acc v).any fs
    then orSet o c (pathName (dcm_display_path base acc v))
    else o

/-- The output row produced for one record with a non-empty accession. -/
def outRowOf (fs : FS) (base : Path) (cols : List String) (row : List Value) :
    OutRow :=
  columns_to_check.foldl (applyCol fs base (normAcc cols row) cols row)
    (initOutRow (normAcc cols row))

/-- A record qualifies for an output row when its accession is
non-empty. -/
def hasAccession (cols : List String) (row : List Value) : Bool :=
  decide (normAcc cols row ≠ "")

/-! ## Concrete data for witnesses and counterexamples -/

/-- A counter-indexed fresh-key supply (a stand-in for `uuid.uuid4()`). -/
def genG (n : Nat) : String := "G" ++ Nat.repr n

/-- A constant fresh-key supply, for closed witnesses. -/
def genConst (_ : Nat) : String := "K9"

/-- A dataset with two records sharing accession `A` under conflicting
pre-existing keys. -/
def dDup : Dataset :=
  { columns := ["Accession", "Study_Key"]
    rows := [[Value.text "A", Value.text "K1"],
             [Value.text "A", Value.text "K2"]] }

/-- A small mixed dataset: a keyless accession, a duplicate accession with
whitespace, a `nan` accession, and a pre-keyed accession. -/
def dMix : Dataset :=
  { columns := ["Accession", "Other", "Study_Key"]
    rows := [
      [Value.text "A1", Value.text "x", Value.text ""],
      [Value.text " A1 ", Value.text "y", Value.absent],
      [Value.text "nan", Value.text "z", Value.text "old"],
      [Value.text "B2", Value.text "w", Value.text " K7 "]] }

/-- A dataset lacking the `Accession` column. -/
def dNoAcc : Dataset :=
  { columns := ["Other"], rows := [[Value.text "x"]] }

/-- A small FileValidator dataset with the full required schema. -/
def dCheck : Dataset :=
  { columns := requiredColumnsList
    rows := [
      [Value.text "A", Value.text "IMG1", Value.text "IMG2.dcm", Value.absent,
       Value.text "IMG3", Value.absent, Value.absent],
      [Value.text "", Value.text "IMG9", Value.absent, Value.absent,
       Value.absent, Value.absent, Value.absent],
      [Value.text "B", Value.absent, Value.nanFloat, Value.text " nan ",
       Value.absent, Value.absent, Value.absent]] }

/-- A concrete filesystem holding two of the three referenced files. -/
def fsEx : FS := fun p =>
  p == ["base", "A", "IMG1.dcm"] || p == ["base", "A", "IMG2.dcm"]

/-! ## List and string helper lemmas -/

/-- The head of `dropWhile p l`, when present, fails `p`. -/
theorem head_dropWhile_false (p : Char → Bool) :
    ∀ (l : List Char) (c : Char), (l.dropWhile p).head? = some c → p c = false := by
  intro l
  induction l with
  | nil => intro c h; simp [List.dropWhile] at h
  | cons a as ih =>
    intro c h
    by_cases hp : p a
    · rw [List.dropWhile_cons_of_pos hp] at h
      exact ih c h
    · rw [List.dropWhile_cons_of_neg hp] at h
      have hac : a = c := by simpa using h
      subst hac
      exact Bool.eq_false_iff.mpr hp

/-- `dropWhile` of a nonempty result preserves the last element. -/
theorem getLast?_dropWhile (p : Char → Bool) :
    ∀ (l : List Char), l.dropWhile p ≠ [] → (l.dropWhile p).getLast? = l.getLast? := by
  intro l
  induction l with
  | nil => intro h; simp [List.dropWhile] at h
  | cons a as ih =>
    intro h
    by_cases hp : p a
    · rw [List.dropWhile_cons_of_pos hp] at h ⊢
      have has : as ≠ [] := by
        intro hn; subst hn; simp [List.dropWhile] at h
      rw [ih h]
      cases as with
      | nil => exact absurd rfl has
      | cons b bs => simp
    · rw [List.dropWhile_cons_of_neg hp]

/-- `dropWhile` is the identity when the head (if any) fails the
predicate. -/
theorem dropWhile_eq_self_of_head (p : Char → Bool) (l : List Char)
    (h : ∀ c, l.head? = some c → p c = false) : l.dropWhile p = l := by
  cases l with
  | nil => simp [List.dropWhile]
  | cons a as =>
    have := h a (by simp)
    rw [List.dropWhile_cons_of_neg (by simp [this])]

/-- The head of a stripped list, when present, is not whitespace. -/
theorem head_stripList_false (l : List Char) (c : Char)
    (h : (stripList l).head? = some c) : c.isWhitespace = false := by
  unfold stripList at h
  rw [List.head?_reverse] at h
  have hne : (l.dropWhile Char.isWhitespace).reverse.dropWhile Char.isWhitespace ≠ [] := by
    intro hn; rw [hn] at h; simp at h
  rw [getLast?_dropWhile _ _ hne, List.getLast?_reverse] at h
  exact head_dropWhile_false _ l c h

/-- The last element of a stripped list, when present, is not
whitespace. -/
theorem getLast?_stripList_false (l : List Char) (c : Char)
    (h : (stripList l).getLast? = some c) : c.isWhitespace = false := by
  unfold stripList at h
  rw [List.getLast?_reverse] at h
  exact head_dropWhile_false _ _ c h

/-- Stripping is idempotent on character lists. -/
theorem stripList_idem (l : List Char) : stripList (stripList l) = stripList l := by
  have h1 : (stripList l).dropWhile Char.isWhitespace = stripList l :=
    dropWhile_eq_self_of_head _ _ (fun c hc => head_stripList_false l c hc)
  have h2 : (stripList l).reverse.dropWhile Char.isWhitespace = (stripList l).reverse := by
    apply dropWhile_eq_self_of_head
    intro c hc
    rw [List.head?_reverse] at hc
    exact getLast?_stripList_false l c hc
  have e : stripList (stripList l)
      = (((stripList l).dropWhile Char.isWhitespace).reverse.dropWhile
          Char.isWhitespace).reverse := rfl
  rw [e, h1, h2, List.reverse_reverse]

/-- `pyStrip` is idempotent. -/
theorem pyStrip_idem (s : String) : pyStrip (pyStrip s) = pyStrip s :=
  congrArg String.mk (stripList_idem s.data)

/-- Normalizing the empty string gives the empty string. -/
theorem normalize_empty : normalize_value (Value.text "") = "" := by decide

/-- The output of `normalize_value` is stable under renormalization. -/
theorem normalize_value_stable (v : Value) :
    normalize_value (Value.text (normalize_value v)) = normalize_value v := by
  cases v with
  | absent => simpa using normalize_empty
  | nanFloat => simpa using normalize_empty
  | text s =>
    show normalize_value (Value.text (normalize_value (Value.text s)))
        = normalize_value (Value.text s)
    unfold normalize_value
    by_cases h : pyLower (pyStrip s) = "nan"
    · simp only [h, if_pos]
      simpa [normalize_value] using normalize_empty
    · simp only [h, if_neg, ite_false]
      rw [pyStrip_idem]
      simp [h]

/-- C4: the Value Normalizer contract. `normalize_value` is a total Lean
function; it returns `""` for an absent cell, a float NaN marker, and any
text whose stripped form is case-insensitively `"nan"`; any other text is
returned stripped; and normalizing its own output is the identity. -/
theorem normalize_value_contract :
    normalize_value Value.absent = "" ∧
    normalize_value Value.nanFloat = "" ∧
    (∀ s : String, pyLower (pyStrip s) = "nan" → normalize_value (Value.text s) = "") ∧
    (∀ s : String, pyLower (pyStrip s) ≠ "nan" → normalize_value (Value.text s) = pyStrip s) ∧
    (∀ v : Value, normalize_value (Value.text (normalize_value v)) = normalize_value v) := by
  refine ⟨rfl, rfl, ?_, ?_, normalize_value_stable⟩
  · intro s h; simp [normalize_value, h]
  · intro s h; simp [normalize_value, h]

/-- Witness for C4 at concrete inputs. -/
theorem normalize_value_contract_witness :
    normalize_value (Value.text "  NaN ") = "" ∧
    normalize_value (Value.text " IMG1 ") = pyStrip " IMG1 " ∧
    normalize_value (Value.text (normalize_value (Value.text " IMG1 ")))
      = normalize_value (Value.text " IMG1 ") := by
  refine ⟨?_, ?_, ?_⟩
  · exact normalize_value_contract.2.2.1 "  NaN " (by decide)
  · exact normalize_value_contract.2.2.2.1 " IMG1 " (by decide)
  · exact normalize_value_contract.2.2.2.2 (Value.text " IMG1 ")

/-- `getD` over an append, inside the left part. -/
theorem getD_append_left {α : Type} :
    ∀ (l l' : List α) (i : Nat) (d : α), i < l.length →
      (l ++ l').getD i d = l.getD i d := by
  intro l
  induction l with
  | nil => intro l' i d h; simp at h
  | cons a as ih =>
    intro l' i d h
    cases i with
    | zero => rfl
    | succ j =>
      have : j < as.length := by simpa using h
      simpa using ih l' j d this

/-- `getD` over an appended singleton, at the seam. -/
theorem getD_append_self {α : Type} :
    ∀ (l : List α) (x : α) (d : α), (l ++ [x]).getD l.length d = x := by
  intro l
  induction l with
  | nil => intro x d; rfl
  | cons a as ih => intro x d; exact ih x d

/-- `getD` after `set`, same position. -/
theorem getD_set_eq {α : Type} :
    ∀ (l : List α) (i : Nat) (v d : α), i < l.length →
      (l.set i v).getD i d = v := by
  intro l
  induction l with
  | nil => intro i v d h; simp at h
  | cons a as ih =>
    intro i v d h
    cases i with
    | zero => rfl
    | succ j =>
      have : j < as.length := by simpa using h
      simpa using ih j v d this

/-- `getD` after `set`, different position. -/
theorem getD_set_ne {α : Type} :
    ∀ (l : List α) (i j : Nat) (v d : α), i ≠ j →
      (l.set i v).getD j d = l.getD j d := by
  intro l
  induction l with
  | nil => intro i j v d _; simp [List.set]
  | cons a as ih =>
    intro i j v d hij
    cases i with
    | zero =>
      cases j with
      | zero => exact absurd rfl hij
      | succ j' => rfl
    | succ i' =>
      cases j with
      | zero => rfl
      | succ j' =>
        have : i' ≠ j' := fun he => hij (by rw [he])
        simpa using ih i' j' v d this

/-- Setting a position to the value it already holds is the identity. -/
theorem set_getD_self {α : Type} :
    ∀ (l : List α) (i : Nat) (d : α), i < l.length →
      l.set i (l.getD i d) = l := by
  intro l
  induction l with
  | nil => intro i d h; simp at h
  | cons a as ih =>
    intro i d h
    cases i with
    | zero => rfl
    | succ j =>
      have : j < as.length := by simpa using h
      simpa using ih j d this

/-- `getD` of a mapped list, inside the list. -/
theorem getD_map {α β : Type} (f : α → β) :
    ∀ (l : List α) (i : Nat) (d : β) (d' : α), i < l.length →
      (l.map f).getD i d = f (l.getD i d') := by
  intro l
  induction l with
  | nil => intro i d d' h; simp at h
  | cons a as ih =>
    intro i d d' h
    cases i with
    | zero => rfl
    | succ j =>
      have : j < as.length := by simpa using h
      simpa using ih j d d' this

/-- `findSome?` returns the common value when every element offers either
nothing or that value and some element does offer it. -/
theorem findSome?_all_or_none {α β : Type} (f : α → Option β) (v : β) :
    ∀ l : List α, (∀ x ∈ l, f x = none ∨ f x = some v) →
      (∃ x ∈ l, f x = some v) → l.findSome? f = some v := by
  intro l
  induction l with
  | nil => intro _ h; simp at h
  | cons a as ih =>
    intro hall hex
    rw [List.findSome?_cons]
    rcases hall a (by simp) with ha | ha
    · rw [ha]
      rcases hex with ⟨x, hx, hfx⟩
      rcases List.mem_cons.mp hx with rfl | hx'
      · rw [ha] at hfx; exact absurd hfx (by simp)
      · exact ih (fun y hy => hall y (List.mem_cons_of_mem _ hy)) ⟨x, hx', hfx⟩
    · rw [ha]

/-! ## `colIndex`, `getCell`, `setCell` lemmas -/

/-- `colIndex` over an append. -/
theorem colIndex_append (c : String) :
    ∀ (l1 l2 : List String),
      colIndex (l1 ++ l2) c
        = (colIndex l1 c).orElse (fun _ => (colIndex l2 c).map (· + l1.length)) := by
  intro l1
  induction l1 with
  | nil => intro l2; simp [colIndex]
  | cons x xs ih =>
    intro l2
    by_cases hx : x = c
    · simp [colIndex, hx]
    · have e1 : colIndex ((x :: xs) ++ l2) c = (colIndex (xs ++ l2) c).map (· + 1) := by
        simp [colIndex, hx]
      have e2 : colIndex (x :: xs) c = (colIndex xs c).map (· + 1) := by
        simp [colIndex, hx]
      rw [e1, e2, ih l2]
      cases h1 : colIndex xs c with
      | some i => simp [Option.orElse]
      | none =>
        cases h2 : colIndex l2 c with
        | some j =>
          simp [Option.orElse]
          omega
        | none => simp [Option.orElse]

/-- A column is present iff `colIndex` finds it. -/
theorem colIndex_isSome_iff (c : String) :
    ∀ cols : List String, (colIndex cols c).isSome ↔ c ∈ cols := by
  intro cols
  induction cols with
  | nil => simp [colIndex]
  | cons x xs ih =>
    by_cases hx : x = c
    · simp [colIndex, hx]
    · simp [colIndex, hx, Option.isSome_map, ih, Ne.symm hx]

/-- `colIndex` results are in range. -/
theorem colIndex_lt (c : String) :
    ∀ (cols : List String) (i : Nat), colIndex cols c = some i → i < cols.length := by
  intro cols
  induction cols with
  | nil => intro i h; simp [colIndex] at h
  | cons x xs ih =>
    intro i h
    by_cases hx : x = c
    · simp only [colIndex, hx, if_pos, ite_true, Option.some_inj] at h
      subst h
      simp
    · simp only [colIndex, hx, if_neg, ite_false, Option.map_eq_some'] at h
      rcases h with ⟨j, hj, rfl⟩
      have := ih j hj
      simp only [List.length_cons]
      omega

/-- `colIndex` on columns extended on the right, when the column is
already present. -/
theorem colIndex_append_of_mem (c : String) (l1 l2 : List String)
    (h : c ∈ l1) : colIndex (l1 ++ l2) c = colIndex l1 c := by
  rw [colIndex_append]
  rcases (Option.isSome_iff_exists.mp ((colIndex_isSome_iff c l1).mpr h)) with ⟨i, hi⟩
  simp [hi, Option.orElse]

/-- Reading the cell just set. -/
theorem getCell_setCell_self (cols : List String) (row : List Value)
    (c : String) (v : Value) (i : Nat) (hc : colIndex cols c = some i)
    (hi : i < row.length) : getCell cols (setCell cols row c v) c = v := by
  unfold getCell setCell
  rw [hc]
  exact getD_set_eq row i v Value.absent (by simpa using hi)

/-- Reading another column after a set: untouched whenever the two column
names resolve to different indices. -/
theorem getCell_setCell_other (cols : List String) (row : List Value)
    (c c' : String) (v : Value) (h : colIndex cols c' ≠ colIndex cols c) :
    getCell cols (setCell cols row c v) c' = getCell cols row c' := by
  unfold getCell setCell
  cases hc : colIndex cols c with
  | none => rfl
  | some i =>
    cases hc' : colIndex cols c' with
    | none => rfl
    | some j =>
      have hij : i ≠ j := by
        intro he; rw [hc, hc'] at h; exact h (by rw [he])
      exact getD_set_ne row i j v Value.absent hij

/-- Setting a cell to the value it already holds is the identity. -/
theorem setCell_self (cols : List String) (row : List Value) (c : String)
    (i : Nat) (hc : colIndex cols c = some i) (hi : i < row.length) :
    setCell cols row c (getCell cols row c) = row := by
  unfold getCell setCell
  rw [hc]
  exact set_getD_self row i Value.absent hi

/-- `setCell` preserves row length. -/
theorem length_setCell (cols : List String) (row : List Value) (c : String)
    (v : Value) : (setCell cols row c v).length = row.length := by
  unfold setCell
  cases colIndex cols c with
  | none => rfl
  | some i => exact List.length_set row i v

/-! ## Key-map lemmas -/

/-- `kmFind` over an append. -/
theorem kmFind_append (b : String) :
    ∀ m m' : KeyMap,
      kmFind (m ++ m') b = (kmFind m b).orElse (fun _ => kmFind m' b) := by
  intro m
  induction m with
  | nil => intro m'; simp [kmFind]
  | cons p m ih =>
    intro m'
    obtain ⟨a, k⟩ := p
    by_cases hab : a = b
    · simp [kmFind, hab, Option.orElse]
    · simp [kmFind, hab, ih]

/-- An existing entry survives `kmSetdefault`. -/
theorem kmFind_setdefault_mono (m : KeyMap) (a b k v : String)
    (h : kmFind m b = some v) : kmFind (kmSetdefault m a k) b = some v := by
  unfold kmSetdefault
  cases hm : kmFind m a with
  | some _ => exact h
  | none => rw [kmFind_append, h]; rfl

/-- `kmSetdefault` on an absent key inserts it. -/
theorem kmFind_setdefault_self (m : KeyMap) (a k : String)
    (h : kmFind m a = none) : kmFind (kmSetdefault m a k) a = some k := by
  unfold kmSetdefault
  rw [h, kmFind_append, h]
  simp [kmFind, Option.orElse]

/-- `kmSetdefault` leaves other keys unchanged. -/
theorem kmFind_setdefault_other (m : KeyMap) (a b k : String) (hab : a ≠ b) :
    kmFind (kmSetdefault m a k) b = kmFind m b := by
  unfold kmSetdefault
  cases hm : kmFind m a with
  | some _ => rfl
  | none =>
    rw [kmFind_append]
    cases hb : kmFind m b with
    | some v => rfl
    | none => simp [kmFind, hab, Option.orElse]

/-- A found entry is a member of the map. -/
theorem kmFind_mem :
    ∀ (m : KeyMap) (b v : String), kmFind m b = some v → (b, v) ∈ m := by
  intro m
  induction m with
  | nil => intro b v h; simp [kmFind] at h
  | cons p m ih =>
    intro b v h
    obtain ⟨a, k⟩ := p
    by_cases hab : a = b
    · subst hab
      simp [kmFind] at h
      subst h
      simp
    · simp only [kmFind, hab, if_neg, ite_false] at h
      exact List.mem_cons_of_mem _ (ih b v h)

/-! ## Pass 1 (harvest) characterization -/

/-- One harvest step looked up at `a` is the previous entry, else the
row's offer. -/
theorem harvestRow_find (keyCol : String) (cols : List String) (a : String)
    (ha : a ≠ "") (m : KeyMap) (r : List Value) :
    kmFind (harvestRow keyCol cols m r) a
      = (kmFind m a).orElse (fun _ => offerOf keyCol cols a r) := by
  unfold harvestRow offerOf
  by_cases hacc : normAcc cols r = ""
  · have hne : ¬ normAcc cols r = a := by rw [hacc]; exact fun h => ha h.symm
    simp only [hacc, if_pos, ite_true, hne, if_neg, ite_false]
    cases kmFind m a <;> simp [Option.orElse, Ne.symm ha]
  · simp only [hacc, if_neg, ite_false]
    by_cases hkey : normalize_value (getCell cols r keyCol) = ""
    · simp only [hkey, if_pos, ite_true]
      by_cases heq : normAcc cols r = a <;>
        · simp only [heq, ite_true, ite_false, if_pos, if_neg]
          cases kmFind m a <;> simp [Option.orElse]
    · simp only [hkey, if_neg, ite_false]
      by_cases heq : normAcc cols r = a
      · rw [heq]
        cases hma : kmFind m a with
        | some v =>
          rw [kmFind_setdefault_mono m a a _ v hma]
          simp [heq, Option.orElse]
        | none =>
          rw [kmFind_setdefault_self m a _ hma]
          simp [heq, Option.orElse]
      · rw [kmFind_setdefault_other m (normAcc cols r) a _ heq]
        simp only [heq, if_neg, ite_false]
        cases kmFind m a <;> simp [Option.orElse]

/-- Pass 1 as a whole: starting from `m`, the final entry for `a` is the
starting entry if any, else the first offer among the rows. -/
theorem harvest_foldl_find (keyCol : String) (cols : List String) (a : String)
    (ha : a ≠ "") :
    ∀ (rows : List (List Value)) (m : KeyMap),
      kmFind (rows.foldl (harvestRow keyCol cols) m) a
        = (kmFind m a).orElse (fun _ => firstOfferKey keyCol cols rows a) := by
  intro rows
  induction rows with
  | nil =>
    intro m
    simp only [List.foldl_nil, firstOfferKey, List.findSome?_nil]
    cases kmFind m a <;> simp [Option.orElse]
  | cons r rs ih =>
    intro m
    rw [List.foldl_cons, ih (harvestRow keyCol cols m r),
      harvestRow_find keyCol cols a ha m r]
    simp only [firstOfferKey, List.findSome?_cons]
    cases kmFind m a <;> cases offerOf keyCol cols a r <;> simp [Option.orElse]

/-- The harvested map entry for a non-empty accession is exactly the first
offer in row order. -/
theorem harvest_find (keyCol : String) (cols : List String)
    (rows : List (List Value)) (a : String) (ha : a ≠ "") :
    kmFind (harvest keyCol cols rows) a = firstOfferKey keyCol cols rows a := by
  rw [harvest, harvest_foldl_find keyCol cols a ha rows []]
  rfl

/-! ## Pass 2 (backfill) characterization -/

/-- The map component of one backfill step. -/
theorem fillRow_fst (gen : Nat → String) (keyCol : String) (cols : List String)
    (st : KeyMap × Nat) (r : List Value) :
    (fillRow gen keyCol cols st r).1.1
      = if normAcc cols r = "" then st.1
        else if kmFind st.1 (normAcc cols r) = none
          then kmSetdefault st.1 (normAcc cols r) (gen st.2) else st.1 := by
  unfold fillRow
  by_cases hacc : normAcc cols r = "" <;> simp [hacc]

/-- Entries present in the map survive pass 2. -/
theorem fillRows_find_mono (gen : Nat → String) (keyCol : String)
    (cols : List String) (a v : String) :
    ∀ (rs : List (List Value)) (st : KeyMap × Nat),
      kmFind st.1 a = some v →
      kmFind (fillRows gen keyCol cols st rs).1.1 a = some v := by
  intro rs
  induction rs with
  | nil => intro st h; exact h
  | cons r rs ih =>
    intro st h
    show kmFind (fillRows gen keyCol cols (fillRow gen keyCol cols st r).1 rs).1.1 a = some v
    apply ih
    rw [fillRow_fst]
    by_cases hacc : normAcc cols r = ""
    · simpa [hacc] using h
    · simp only [hacc, if_neg, ite_false]
      by_cases hfind : kmFind st.1 (normAcc cols r) = none
      · simp only [hfind, if_pos, ite_true]
        exact kmFind_setdefault_mono st.1 _ a _ v h
      · simpa [hfind] using h

/-- After one backfill step on a row with non-empty accession, the map has
an entry for that accession. -/
theorem fillRow_find_self (gen : Nat → String) (keyCol : String)
    (cols : List String) (st : KeyMap × Nat) (r : List Value)
    (hacc : normAcc cols r ≠ "") :
    ∃ w, kmFind (fillRow gen keyCol cols st r).1.1 (normAcc cols r) = some w := by
  rw [fillRow_fst]
  simp only [hacc, if_neg, ite_false]
  cases hfind : kmFind st.1 (normAcc cols r) with
  | some v => exact ⟨v, by simp [hfind]⟩
  | none =>
    exact ⟨gen st.2, by simp [hfind, kmFind_setdefault_self st.1 _ _ hfind]⟩

/-- After pass 2, every accession referenced by some row has an entry. -/
theorem fillRows_find_present (gen : Nat → String) (keyCol : String)
    (cols : List String) :
    ∀ (rs : List (List Value)) (st : KeyMap × Nat) (r : List Value),
      r ∈ rs → normAcc cols r ≠ "" →
      ∃ w, kmFind (fillRows gen keyCol cols st rs).1.1 (normAcc cols r) = some w := by
  intro rs
  induction rs with
  | nil => intro st r h; simp at h
  | cons r0 rs ih =>
    intro st r hmem hacc
    rcases List.mem_cons.mp hmem with rfl | hmem'
    · rcases fillRow_find_self gen keyCol cols st r hacc with ⟨w, hw⟩
      exact ⟨w, fillRows_find_mono gen keyCol cols _ w rs _ hw⟩
    · exact ih (fillRow gen keyCol cols st r0).1 r hmem' hacc

/-- Pass 2 rewrites the rows exactly as `stepWith` of the final map. -/
theorem fillRows_rows_eq_map (gen : Nat → String) (keyCol : String)
    (cols : List String) :
    ∀ (rs : List (List Value)) (st : KeyMap × Nat),
      (fillRows gen keyCol cols st rs).2
        = rs.map (stepWith keyCol cols (fillRows gen keyCol cols st rs).1.1) := by
  intro rs
  induction rs with
  | nil => intro st; rfl
  | cons r rs ih =>
    intro st
    show (fillRow gen keyCol cols st r).2
          :: (fillRows gen keyCol cols (fillRow gen keyCol cols st r).1 rs).2
        = (r :: rs).map (stepWith keyCol cols
            (fillRows gen keyCol cols (fillRow gen keyCol cols st r).1 rs).1.1)
    rw [List.map_cons, ih (fillRow gen keyCol cols st r).1]
    congr 1
    by_cases hacc : normAcc cols r = ""
    · simp [fillRow, stepWith, hacc]
    · rcases fillRow_find_self gen keyCol cols st r hacc with ⟨w, hw⟩
      have hM : kmFind (fillRows gen keyCol cols (fillRow gen keyCol cols st r).1 rs).1.1
          (normAcc cols r) = some w :=
        fillRows_find_mono gen keyCol cols _ w rs _ hw
      have h2 : (fillRow gen keyCol cols st r).2
          = setCell cols r keyCol
              (Value.text ((kmFind (fillRow gen keyCol cols st r).1.1 (normAcc cols r)).getD "")) := by
        unfold fillRow
        simp [hacc]
      rw [h2, stepWith]
      simp only [hacc, if_neg, ite_false]
      rw [hw, hM]

/-- When the harvested map lacks a referenced accession, pass 2 fills it
with a freshly drawn identifier. -/
theorem fillRows_find_new (gen : Nat → String) (keyCol : String)
    (cols : List String) (a : String) (ha : a ≠ "") :
    ∀ (rs : List (List Value)) (st : KeyMap × Nat),
      kmFind st.1 a = none → (∃ r ∈ rs, normAcc cols r = a) →
      ∃ n, kmFind (fillRows gen keyCol cols st rs).1.1 a = some (gen n) := by
  intro rs
  induction rs with
  | nil => intro st _ h; simp at h
  | cons r0 rs ih =>
    intro st hnone hex
    by_cases hacc : normAcc cols r0 = a
    · have hblank : ¬ normAcc cols r0 = "" := by rw [hacc]; exact ha
      -- head references a (non-empty): the step inserts gen st.2 if absent
      · rw [← hacc] at hnone
        show ∃ n, kmFind (fillRows gen keyCol cols (fillRow gen keyCol cols st r0).1 rs).1.1 _ = _
        have : kmFind (fillRow gen keyCol cols st r0).1.1 (normAcc cols r0) = some (gen st.2) := by
          rw [fillRow_fst]
          simp only [hblank, if_neg, ite_false, hnone, if_pos, ite_true]
          exact kmFind_setdefault_self st.1 _ _ hnone
        rw [hacc] at this
        exact ⟨st.2, fillRows_find_mono gen keyCol cols a _ rs _ this⟩
    · -- head references some other accession: its step leaves `a` absent
      have hstep : kmFind (fillRow gen keyCol cols st r0).1.1 a = none := by
        rw [fillRow_fst]
        by_cases hblank : normAcc cols r0 = ""
        · simpa [hblank] using hnone
        · simp only [hblank, if_neg, ite_false]
          by_cases hfind : kmFind st.1 (normAcc cols r0) = none
          · simp only [hfind, if_pos, ite_true]
            rw [kmFind_setdefault_other st.1 _ a _ hacc]
            exact hnone
          · simpa [hfind] using hnone
      rcases hex with ⟨r, hr, hra⟩
      rcases List.mem_cons.mp hr with rfl | hr'
      · exact absurd hra hacc
      · exact ih (fillRow gen keyCol cols st r0).1 hstep ⟨r, hr', hra⟩

/-! ## Map goodness and key uniqueness -/

/-- `kmSetdefault` with a good value preserves goodness. -/
theorem kmSetdefault_good (m : KeyMap) (a k : String) (hm : kmGood m)
    (hk : k ≠ "") (hs : stableStr k) : kmGood (kmSetdefault m a k) := by
  unfold kmSetdefault
  cases kmFind m a with
  | some _ => exact hm
  | none =>
    intro p hp
    rcases List.mem_append.mp hp with h | h
    · exact hm p h
    · rcases List.mem_singleton.mp h with rfl
      exact ⟨hk, hs⟩

/-- Pass 1 only stores non-empty stable keys. -/
theorem harvest_foldl_good (keyCol : String) (cols : List String) :
    ∀ (rows : List (List Value)) (m : KeyMap), kmGood m →
      kmGood (rows.foldl (harvestRow keyCol cols) m) := by
  intro rows
  induction rows with
  | nil => intro m hm; exact hm
  | cons r rs ih =>
    intro m hm
    apply ih
    unfold harvestRow
    by_cases hacc : normAcc cols r = ""
    · simpa [hacc] using hm
    · simp only [hacc, if_neg, ite_false]
      by_cases hkey : normalize_value (getCell cols r keyCol) = ""
      · simpa [hkey] using hm
      · simp only [hkey, if_pos, ite_true, if_neg, ite_false]
        exact kmSetdefault_good m _ _ hm hkey (normalize_value_stable _)

/-- Pass 2 only adds generator values, which are good when the generator
is. -/
theorem fillRows_good (gen : Nat → String) (keyCol : String)
    (cols : List String) (hgen : ∀ n, gen n ≠ "" ∧ stableStr (gen n)) :
    ∀ (rs : List (List Value)) (st : KeyMap × Nat), kmGood st.1 →
      kmGood (fillRows gen keyCol cols st rs).1.1 := by
  intro rs
  induction rs with
  | nil => intro st hm; exact hm
  | cons r rs ih =>
    intro st hm
    apply ih
    rw [fillRow_fst]
    by_cases hacc : normAcc cols r = ""
    · simpa [hacc] using hm
    · simp only [hacc, if_neg, ite_false]
      by_cases hfind : kmFind st.1 (normAcc cols r) = none
      · simp only [hfind, if_pos, ite_true]
        exact kmSetdefault_good st.1 _ _ hm (hgen st.2).1 (hgen st.2).2
      · simpa [hfind] using hm

/-- An absent key is not among the map's keys. -/
theorem kmFind_none_not_mem :
    ∀ (m : KeyMap) (a : String), kmFind m a = none → a ∉ m.map Prod.fst := by
  intro m
  induction m with
  | nil => intro a _; simp
  | cons p m ih =>
    intro a h
    obtain ⟨b, k⟩ := p
    by_cases hab : b = a
    · simp [kmFind, hab] at h
    · simp only [kmFind, hab, if_neg, ite_false] at h
      simp only [List.map_cons, List.mem_cons]
      exact fun hc => hc.elim (fun he => hab he.symm) (fun hc' => ih a h hc')

/-- `kmSetdefault` preserves distinctness of the stored accessions. -/
theorem kmSetdefault_nodup (m : KeyMap) (a k : String)
    (h : (m.map Prod.fst).Nodup) : ((kmSetdefault m a k).map Prod.fst).Nodup := by
  unfold kmSetdefault
  cases hf : kmFind m a with
  | some _ => exact h
  | none =>
    rw [List.map_append]
    rw [List.nodup_append]
    refine ⟨h, List.nodup_singleton a, ?_⟩
    intro x hx hx'
    rw [List.mem_singleton.mp hx'] at hx
    exact kmFind_none_not_mem m a hf hx

/-- Pass 1 never stores the same accession twice. -/
theorem harvest_foldl_nodup (keyCol : String) (cols : List String) :
    ∀ (rows : List (List Value)) (m : KeyMap), (m.map Prod.fst).Nodup →
      ((rows.foldl (harvestRow keyCol cols) m).map Prod.fst).Nodup := by
  intro rows
  induction rows with
  | nil => intro m hm; exact hm
  | cons r rs ih =>
    intro m hm
    apply ih
    unfold harvestRow
    by_cases hacc : normAcc cols r = ""
    · simpa [hacc] using hm
    · simp only [hacc, if_neg, ite_false]
      by_cases hkey : normalize_value (getCell cols r keyCol) = ""
      · simpa [hkey] using hm
      · simp only [hkey, if_pos, ite_true, if_neg, ite_false]
        exact kmSetdefault_nodup m _ _ hm

/-- Pass 2 never stores the same accession twice either. -/
theorem fillRows_nodup (gen : Nat → String) (keyCol : String)
    (cols : List String) :
    ∀ (rs : List (List Value)) (st : KeyMap × Nat), (st.1.map Prod.fst).Nodup →
      ((fillRows gen keyCol cols st rs).1.1.map Prod.fst).Nodup := by
  intro rs
  induction rs with
  | nil => intro st hm; exact hm
  | cons r rs ih =>
    intro st hm
    apply ih
    rw [fillRow_fst]
    by_cases hacc : normAcc cols r = ""
    · simpa [hacc] using hm
    · simp only [hacc, if_neg, ite_false]
      by_cases hfind : kmFind st.1 (normAcc cols r) = none
      · simp only [hfind, if_pos, ite_true]
        exact kmSetdefault_nodup st.1 _ _ hm
      · simpa [hfind] using hm

/-! ## `ensureKeyCol` and shape lemmas -/

/-- The key column is present after `ensureKeyCol`. -/
theorem ensure_mem (d : Dataset) (k : String) : k ∈ (ensureKeyCol d k).columns := by
  unfold ensureKeyCol
  by_cases h : k ∈ d.columns <;> simp [h]

/-- `ensureKeyCol` keeps every original column. -/
theorem ensure_columns_sub (d : Dataset) (k : String) (c : String)
    (h : c ∈ d.columns) : c ∈ (ensureKeyCol d k).columns := by
  unfold ensureKeyCol
  by_cases hk : k ∈ d.columns <;> simp [hk, h]

/-- `ensureKeyCol` preserves rectangularity. -/
theorem ensure_WF (d : Dataset) (k : String) (h : d.WF) : (ensureKeyCol d k).WF := by
  unfold ensureKeyCol
  by_cases hk : k ∈ d.columns
  · simpa [hk] using h
  · simp only [hk, if_neg, ite_false]
    intro r hr
    simp only [List.mem_map] at hr
    rcases hr with ⟨r0, hr0, rfl⟩
    simp [h r0 hr0]

/-- `ensureKeyCol` preserves the row count. -/
theorem ensure_rows_length (d : Dataset) (k : String) :
    (ensureKeyCol d k).rows.length = d.rows.length := by
  unfold ensureKeyCol
  by_cases hk : k ∈ d.columns <;> simp [hk]

/-- The `i`-th row after `ensureKeyCol`. -/
theorem ensure_rows_getD (d : Dataset) (k : String) (i : Nat)
    (hi : i < d.rows.length) :
    (ensureKeyCol d k).rows.getD i []
      = if k ∈ d.columns then d.rows.getD i []
        else d.rows.getD i [] ++ [Value.text ""] := by
  unfold ensureKeyCol
  by_cases hk : k ∈ d.columns
  · simp [hk]
  · simp only [hk, if_neg, ite_false]
    exact getD_map _ d.rows i [] [] hi

/-- Cells of original columns are unchanged by `ensureKeyCol`, row-wise,
on a rectangular dataset. -/
theorem ensure_getCell (d : Dataset) (k : String) (r : List Value)
    (hr : r.length = d.columns.length) (c : String) (hc : c ∈ d.columns) :
    getCell (ensureKeyCol d k).columns (if k ∈ d.columns then r else r ++ [Value.text ""]) c
      = getCell d.columns r c := by
  unfold ensureKeyCol
  by_cases hk : k ∈ d.columns
  · simp [hk]
  · simp only [hk, if_neg, ite_false]
    unfold getCell
    rw [colIndex_append_of_mem c d.columns [k] hc]
    cases hci : colIndex d.columns c with
    | none =>
      exact absurd ((colIndex_isSome_iff c d.columns).mpr hc) (by simp [hci])
    | some j =>
      have hj : j < r.length := hr ▸ colIndex_lt c d.columns j hci
      exact getD_append_left r [Value.text ""] j Value.absent hj

/-- How a `setCell` on the key column affects the normalized accession:
unchanged unless the accession column is the key column itself, in which
case it becomes the written value's normalization. -/
theorem normAcc_setCell (cols : List String) (r : List Value) (k : String)
    (v : Value) (ik : Nat) (hk : colIndex cols k = some ik) :
    normAcc cols (setCell cols r k v)
      = if colIndex cols "Accession" = colIndex cols k
        then normalize_value ((r.set ik v).getD ik Value.absent)
        else normAcc cols r := by
  unfold normAcc getCell setCell
  rw [hk]
  cases ha : colIndex cols "Accession" with
  | none =>
    rw [if_neg (by simp)]
  | some ia =>
    by_cases he : ia = ik
    · subst he
      rw [if_pos rfl]
    · rw [if_neg (by simp [he])]
      exact congrArg normalize_value
        (getD_set_ne r ik ia v Value.absent (fun hc => he hc.symm))

/-- `stepWith` preserves row length. -/
theorem stepWith_length (keyCol : String) (cols : List String) (M : KeyMap)
    (r : List Value) : (stepWith keyCol cols M r).length = r.length := by
  unfold stepWith
  by_cases h : normAcc cols r = ""
  · simp [h]
  · simp only [h, if_neg, ite_false]
    exact length_setCell cols r keyCol _

/-- `assign_keys` keeps the ensured column list. -/
theorem assign_keys_columns (gen : Nat → String) (d : Dataset) (k : String) :
    (assign_keys gen d k).columns = (ensureKeyCol d k).columns := rfl

/-- `assign_keys` rewrites the ensured rows by `stepWith` of the final
key map. -/
theorem assign_keys_rows_map (gen : Nat → String) (d : Dataset) (k : String) :
    (assign_keys gen d k).rows
      = (ensureKeyCol d k).rows.map
          (stepWith k (ensureKeyCol d k).columns (finalKeyMap gen d k)) := by
  show (fillRows gen k (ensureKeyCol d k).columns
      (harvest k (ensureKeyCol d k).columns (ensureKeyCol d k).rows, 0)
      (ensureKeyCol d k).rows).2 = _
  exact fillRows_rows_eq_map gen k _ _ _

/-- `assign_keys` preserves rectangularity. -/
theorem assign_keys_WF (gen : Nat → String) (d : Dataset) (k : String)
    (h : d.WF) : (assign_keys gen d k).WF := by
  intro r hr
  rw [assign_keys_rows_map] at hr
  simp only [List.mem_map] at hr
  rcases hr with ⟨r0, hr0, rfl⟩
  rw [assign_keys_columns, stepWith_length]
  exact ensure_WF d k h r0 hr0

/-- Membership of `getD` within bounds. -/
theorem getD_mem {α : Type} :
    ∀ (l : List α) (i : Nat) (d : α), i < l.length → l.getD i d ∈ l := by
  intro l
  induction l with
  | nil => intro i d h; simp at h
  | cons a as ih =>
    intro i d h
    cases i with
    | zero => simp
    | succ j =>
      have : j < as.length := by simpa using h
      exact List.mem_cons_of_mem a (ih j d this)

/-! ## Fixpoint of a fully keyed dataset -/

/-- Running the key-assignment pass on a dataset that is already fully
keyed changes nothing. -/
theorem keyed_fixpoint (gen2 : Nat → String) (e : Dataset) (k : String)
    (hk : k ∈ e.columns) (hWF : e.WF) (hKeyed : Keyed k e.columns e.rows) :
    assign_keys gen2 e k = e := by
  have hens : ensureKeyCol e k = e := by unfold ensureKeyCol; simp [hk]
  have hrows := assign_keys_rows_map gen2 e k
  rw [hens] at hrows
  have hstep : ∀ r ∈ e.rows, stepWith k e.columns (finalKeyMap gen2 e k) r = r := by
    intro r hr
    by_cases hacc : normAcc e.columns r = ""
    · simp [stepWith, hacc]
    · rcases hKeyed r hr hacc with ⟨v, hv_ne, hv_st, hv_get, hv_all⟩
      have hv_st' : normalize_value (Value.text v) = v := hv_st
      have hoffer : firstOfferKey k e.columns e.rows (normAcc e.columns r) = some v := by
        apply findSome?_all_or_none
        · intro r' hr'
          by_cases h' : normAcc e.columns r' = normAcc e.columns r
          · right
            unfold offerOf
            rw [if_pos h', hv_all r' hr' h', hv_st', if_neg hv_ne]
          · left
            unfold offerOf
            rw [if_neg h']
        · refine ⟨r, hr, ?_⟩
          unfold offerOf
          rw [if_pos rfl, hv_get, hv_st', if_neg hv_ne]
      have hharv : kmFind (harvest k e.columns e.rows) (normAcc e.columns r) = some v := by
        rw [harvest_find k e.columns e.rows _ hacc]
        exact hoffer
      have hMdef : finalKeyMap gen2 e k
          = (fillRows gen2 k e.columns (harvest k e.columns e.rows, 0) e.rows).1.1 := by
        unfold finalKeyMap
        rw [hens]
      have hM : kmFind (finalKeyMap gen2 e k) (normAcc e.columns r) = some v := by
        rw [hMdef]
        exact fillRows_find_mono gen2 k e.columns _ v e.rows _ hharv
      unfold stepWith
      rw [if_neg hacc, hM]
      show setCell e.columns r k (Value.text v) = r
      rcases Option.isSome_iff_exists.mp ((colIndex_isSome_iff k e.columns).mpr hk)
        with ⟨ik, hik⟩
      have hlen : ik < r.length := (hWF r hr) ▸ colIndex_lt k e.columns ik hik
      have hself := setCell_self e.columns r k ik hik hlen
      rw [hv_get] at hself
      exact hself
  have hrows' : (assign_keys gen2 e k).rows = e.rows := by
    rw [hrows, List.map_congr_left hstep]
    simp
  have hcols' : (assign_keys gen2 e k).columns = e.columns := by
    rw [assign_keys_columns, hens]
  have hsplit : assign_keys gen2 e k
      = ⟨(assign_keys gen2 e k).columns, (assign_keys gen2 e k).rows⟩ := rfl
  rw [hsplit, hcols', hrows']

/-- Normalized accession of a `stepWith`-rewritten row: unchanged, unless
the accession column is the key column, in which case it becomes the
written (stable) key. -/
theorem normAcc_stepWith (cols : List String) (k : String) (M : KeyMap)
    (r : List Value) (ik : Nat) (hik : colIndex cols k = some ik)
    (hlen : ik < r.length) (hacc : normAcc cols r ≠ "") (w : String)
    (hw : kmFind M (normAcc cols r) = some w)
    (hw_st : normalize_value (Value.text w) = w) :
    normAcc cols (stepWith k cols M r)
      = if colIndex cols "Accession" = colIndex cols k
        then w else normAcc cols r := by
  have hstep : stepWith k cols M r = setCell cols r k (Value.text w) := by
    unfold stepWith
    rw [if_neg hacc, hw]
    rfl
  rw [hstep, normAcc_setCell cols r k (Value.text w) ik hik]
  by_cases hcond : colIndex cols "Accession" = colIndex cols k
  · rw [if_pos hcond, if_pos hcond, getD_set_eq r ik (Value.text w) Value.absent hlen]
    exact hw_st
  · rw [if_neg hcond, if_neg hcond]

/-- After one run with a well-behaved generator, the output dataset is
fully keyed. -/
theorem output_keyed (gen : Nat → String) (d : Dataset) (k : String)
    (hWF : d.WF) (hgen : ∀ n, gen n ≠ "" ∧ stableStr (gen n)) :
    Keyed k (assign_keys gen d k).columns (assign_keys gen d k).rows := by
  rw [assign_keys_columns, assign_keys_rows_map]
  set cols := (ensureKeyCol d k).columns with hcols
  set M := finalKeyMap gen d k with hMdef
  have hWFe : (ensureKeyCol d k).WF := ensure_WF d k hWF
  have hk : k ∈ cols := ensure_mem d k
  rcases Option.isSome_iff_exists.mp ((colIndex_isSome_iff k cols).mpr hk)
    with ⟨ik, hik⟩
  have hgood : kmGood M := by
    rw [hMdef]
    unfold finalKeyMap
    apply fillRows_good gen k cols hgen
    exact harvest_foldl_good k cols (ensureKeyCol d k).rows [] (by intro p hp; simp at hp)
  have hpresent : ∀ r ∈ (ensureKeyCol d k).rows, normAcc cols r ≠ "" →
      ∃ w, kmFind M (normAcc cols r) = some w := by
    intro r hr hacc
    rw [hMdef]
    unfold finalKeyMap
    exact fillRows_find_present gen k cols (ensureKeyCol d k).rows _ r hr hacc
  intro r' hr' hacc'
  rcases List.mem_map.mp hr' with ⟨r, hr, rfl⟩
  by_cases hacc : normAcc cols r = ""
  · rw [show stepWith k cols M r = r by simp [stepWith, hacc]] at hacc'
    exact absurd hacc hacc'
  · rcases hpresent r hr hacc with ⟨w, hw⟩
    have hgw := hgood (normAcc cols r, w) (kmFind_mem M _ w hw)
    have hw_ne : w ≠ "" := hgw.1
    have hw_st : normalize_value (Value.text w) = w := hgw.2
    have hlen : ik < r.length := (hWFe r hr) ▸ colIndex_lt k cols ik hik
    have hr'eq : stepWith k cols M r = setCell cols r k (Value.text w) := by
      unfold stepWith
      rw [if_neg hacc, hw]
      rfl
    have hA1 : normAcc cols (stepWith k cols M r)
        = if colIndex cols "Accession" = colIndex cols k then w else normAcc cols r :=
      normAcc_stepWith cols k M r ik hik hlen hacc w hw hw_st
    refine ⟨w, hw_ne, hw_st, ?_, ?_⟩
    · rw [hr'eq]
      exact getCell_setCell_self cols r k (Value.text w) ik hik hlen
    · intro r'' hr'' heq
      rcases List.mem_map.mp hr'' with ⟨r2, hr2, rfl⟩
      by_cases hacc2 : normAcc cols r2 = ""
      · have hid : stepWith k cols M r2 = r2 := by simp [stepWith, hacc2]
        rw [hid, hacc2] at heq
        exact absurd heq.symm hacc'
      · rcases hpresent r2 hr2 hacc2 with ⟨w2, hw2⟩
        have hgw2 := hgood (normAcc cols r2, w2) (kmFind_mem M _ w2 hw2)
        have hw2_st : normalize_value (Value.text w2) = w2 := hgw2.2
        have hlen2 : ik < r2.length := (hWFe r2 hr2) ▸ colIndex_lt k cols ik hik
        have hr2eq : stepWith k cols M r2 = setCell cols r2 k (Value.text w2) := by
          unfold stepWith
          rw [if_neg hacc2, hw2]
          rfl
        have hA2 : normAcc cols (stepWith k cols M r2)
            = if colIndex cols "Accession" = colIndex cols k then w2 else normAcc cols r2 :=
          normAcc_stepWith cols k M r2 ik hik hlen2 hacc2 w2 hw2 hw2_st
        rw [hr2eq]
        have hget2 : getCell cols (setCell cols r2 k (Value.text w2)) k = Value.text w2 :=
          getCell_setCell_self cols r2 k (Value.text w2) ik hik hlen2
        rw [hget2]
        rw [hA1, hA2] at heq
        by_cases hcond : colIndex cols "Accession" = colIndex cols k
        · rw [if_pos hcond, if_pos hcond] at heq
          rw [heq]
        · rw [if_neg hcond, if_neg hcond] at heq
          rw [heq] at hw2
          exact congrArg Value.text (Option.some_inj.mp (hw2.symm.trans hw))

/-- Cell lookup through a computed column index. -/
theorem getCell_of_colIndex (cols : List String) (row : List Value)
    (c : String) (j : Nat) (h : colIndex cols c = some j) :
    getCell cols row c = row.getD j Value.absent := by
  unfold getCell
  rw [h]

/-- Cell lookup when the column is absent. -/
theorem getCell_of_colIndex_none (cols : List String) (row : List Value)
    (c : String) (h : colIndex cols c = none) :
    getCell cols row c = Value.absent := by
  unfold getCell
  rw [h]

/-- Cell lookup after appending one column and one cell to a rectangular
row. -/
theorem getCell_append_col (cols : List String) (r : List Value) (k : String)
    (x : Value) (hlen : r.length = cols.length) (c : String) :
    getCell (cols ++ [k]) (r ++ [x]) c
      = if c ∈ cols then getCell cols r c
        else if k = c then x else Value.absent := by
  cases hc1 : colIndex cols c with
  | some j =>
    have hc : c ∈ cols := (colIndex_isSome_iff c cols).mp (by simp [hc1])
    have hci : colIndex (cols ++ [k]) c = some j :=
      (colIndex_append_of_mem c cols [k] hc).trans hc1
    rw [getCell_of_colIndex _ _ c j hci, if_pos hc,
      getCell_of_colIndex cols r c j hc1]
    have hj : j < r.length := hlen ▸ colIndex_lt c cols j hc1
    exact getD_append_left r [x] j Value.absent hj
  | none =>
    have hc : c ∉ cols := by
      intro hmem
      exact absurd ((colIndex_isSome_iff c cols).mpr hmem) (by simp [hc1])
    rw [if_neg hc]
    by_cases hkc : k = c
    · have hci : colIndex (cols ++ [k]) c = some cols.length := by
        rw [colIndex_append c cols [k], hc1]
        simp [colIndex, hkc, Option.orElse]
      rw [getCell_of_colIndex _ _ c cols.length hci, if_pos hkc, ← hlen]
      exact getD_append_self r x Value.absent
    · have hci : colIndex (cols ++ [k]) c = none := by
        rw [colIndex_append c cols [k], hc1]
        simp [colIndex, hkc, Option.orElse]
      rw [getCell_of_colIndex_none _ _ c hci, if_neg hkc]

/-- A blank accession stays blank through `ensureKeyCol`. -/
theorem normAcc_ensure (d : Dataset) (k : String) (r : List Value)
    (hlen : r.length = d.columns.length) (hblank : normAcc d.columns r = "") :
    normAcc (ensureKeyCol d k).columns
      (if k ∈ d.columns then r else r ++ [Value.text ""]) = "" := by
  by_cases hk : k ∈ d.columns
  · rw [if_pos hk]
    have he : (ensureKeyCol d k).columns = d.columns := by
      unfold ensureKeyCol
      rw [if_pos hk]
    rw [he]
    exact hblank
  · rw [if_neg hk]
    have he : (ensureKeyCol d k).columns = d.columns ++ [k] := by
      unfold ensureKeyCol
      rw [if_neg hk]
    rw [he]
    unfold normAcc
    rw [getCell_append_col d.columns r k (Value.text "") hlen "Accession"]
    by_cases hAc : "Accession" ∈ d.columns
    · rw [if_pos hAc]
      exact hblank
    · rw [if_neg hAc]
      by_cases hka : k = "Accession"
      · rw [if_pos hka]
        exact normalize_empty
      · rw [if_neg hka]
        rfl

/-- C1: KeyAssigner idempotence.  On a rectangular dataset, and with a
fresh-key generator whose identifiers are non-empty and stable under
normalization (as `str(uuid.uuid4())` is), running the key-assignment
pass a second time on the output of the first run changes nothing at
all — no key-column cell and no other cell. -/
theorem assign_keys_idempotent (gen gen2 : Nat → String) (d : Dataset)
    (k : String) (hWF : d.WF)
    (hgen : ∀ n, gen n ≠ "" ∧ stableStr (gen n)) :
    assign_keys gen2 (assign_keys gen d k) k = assign_keys gen d k :=
  keyed_fixpoint gen2 (assign_keys gen d k) k
    (by rw [assign_keys_columns]; exact ensure_mem d k)
    (assign_keys_WF gen d k hWF)
    (output_keyed gen d k hWF hgen)

/-- Witness for C1 on a concrete mixed dataset. -/
theorem assign_keys_idempotent_witness :
    assign_keys genConst (assign_keys genConst dMix "Study_Key") "Study_Key"
      = assign_keys genConst dMix "Study_Key" :=
  assign_keys_idempotent genConst genConst dMix "Study_Key"
    (by unfold Dataset.WF; decide)
    (fun _ => ⟨by show ("K9" : String) ≠ ""; decide,
               by show normalize_value (Value.text "K9") = "K9"; decide⟩)

/-- C9: blank-accession skip.  A record whose accession cell normalizes
to the empty string is not touched by the run: it is unchanged verbatim
when the key column already exists, it only gains the empty cell of the
freshly created key column otherwise, and in both cases every cell under
every original column reads back unchanged. -/
theorem blank_accession_skip (gen : Nat → String) (d : Dataset) (k : String)
    (i : Nat) (hWF : d.WF) (hi : i < d.rows.length)
    (hblank : normAcc d.columns (d.rows.getD i []) = "") :
    (k ∈ d.columns → (assign_keys gen d k).rows.getD i [] = d.rows.getD i []) ∧
    (k ∉ d.columns →
      (assign_keys gen d k).rows.getD i [] = d.rows.getD i [] ++ [Value.text ""]) ∧
    (∀ c ∈ d.columns,
      getCell (assign_keys gen d k).columns ((assign_keys gen d k).rows.getD i []) c
        = getCell d.columns (d.rows.getD i []) c) := by
  have hWFr : (d.rows.getD i []).length = d.columns.length :=
    hWF _ (getD_mem d.rows i [] hi)
  have hie : i < (ensureKeyCol d k).rows.length := by
    rw [ensure_rows_length]
    exact hi
  have hrow_e : (ensureKeyCol d k).rows.getD i []
      = if k ∈ d.columns then d.rows.getD i []
        else d.rows.getD i [] ++ [Value.text ""] :=
    ensure_rows_getD d k i hi
  have hblank_e : normAcc (ensureKeyCol d k).columns
      ((ensureKeyCol d k).rows.getD i []) = "" := by
    rw [hrow_e]
    exact normAcc_ensure d k (d.rows.getD i []) hWFr hblank
  have hout : (assign_keys gen d k).rows.getD i []
      = (ensureKeyCol d k).rows.getD i [] := by
    have hstep : stepWith k (ensureKeyCol d k).columns (finalKeyMap gen d k)
        ((ensureKeyCol d k).rows.getD i []) = (ensureKeyCol d k).rows.getD i [] := by
      unfold stepWith
      rw [if_pos hblank_e]
    rw [assign_keys_rows_map,
      getD_map _ (ensureKeyCol d k).rows i [] [] hie, hstep]
  refine ⟨?_, ?_, ?_⟩
  · intro hk
    rw [hout, hrow_e, if_pos hk]
  · intro hk
    rw [hout, hrow_e, if_neg hk]
  · intro c hc
    rw [hout, assign_keys_columns, hrow_e]
    exact ensure_getCell d k (d.rows.getD i []) hWFr c hc

/-- Witness for C9 at the `nan`-accession record of the mixed dataset. -/
theorem blank_accession_skip_witness :
    ((assign_keys genConst dMix "Study_Key").rows.getD 2 [] = dMix.rows.getD 2 []) ∧
    getCell (assign_keys genConst dMix "Study_Key").columns
        ((assign_keys genConst dMix "Study_Key").rows.getD 2 []) "Other"
      = getCell dMix.columns (dMix.rows.getD 2 []) "Other" := by
  have h := blank_accession_skip genConst dMix "Study_Key" 2
    (by unfold Dataset.WF; decide) (by decide) (by decide)
  exact ⟨h.1 (by decide), h.2.2 "Other" (by decide)⟩

/-- C2 (amended): key preservation.  If a record's key cell normalizes to
a non-empty value `v`, and either its accession is blank or the first
non-empty key harvested for its accession (in row order) is `v` itself —
in particular whenever no earlier record shares its accession with a
different key — then after the run the record's key cell still normalizes
to exactly `v`. -/
theorem assign_keys_key_preserved (gen : Nat → String) (d : Dataset)
    (k : String) (i : Nat) (hWF : d.WF) (hi : i < d.rows.length) (v : String)
    (hv : normalize_value (getCell d.columns (d.rows.getD i []) k) = v)
    (hne : v ≠ "")
    (hfirst : normAcc d.columns (d.rows.getD i []) = "" ∨
      firstOfferKey k d.columns d.rows (normAcc d.columns (d.rows.getD i []))
        = some v) :
    normalize_value (getCell (assign_keys gen d k).columns
      ((assign_keys gen d k).rows.getD i []) k) = v := by
  have hkmem : k ∈ d.columns := by
    by_contra hk
    have hnone : colIndex d.columns k = none := by
      cases hcase : colIndex d.columns k with
      | none => rfl
      | some j =>
        exact absurd ((colIndex_isSome_iff k d.columns).mp (by simp [hcase])) hk
    have habs : getCell d.columns (d.rows.getD i []) k = Value.absent := by
      unfold getCell
      rw [hnone]
    rw [habs] at hv
    exact hne (hv.symm.trans rfl)
  have hens : ensureKeyCol d k = d := by
    unfold ensureKeyCol
    rw [if_pos hkmem]
  have hWFr : (d.rows.getD i []).length = d.columns.length :=
    hWF _ (getD_mem d.rows i [] hi)
  have hcolsout : (assign_keys gen d k).columns = d.columns := by
    rw [assign_keys_columns, hens]
  have hrowsout : (assign_keys gen d k).rows
      = d.rows.map (stepWith k d.columns (finalKeyMap gen d k)) := by
    rw [assign_keys_rows_map, hens]
  have hMdef : finalKeyMap gen d k
      = (fillRows gen k d.columns (harvest k d.columns d.rows, 0) d.rows).1.1 := by
    unfold finalKeyMap
    rw [hens]
  rw [hcolsout, hrowsout, getD_map _ d.rows i [] [] hi]
  by_cases hacc : normAcc d.columns (d.rows.getD i []) = ""
  · have hstep0 : stepWith k d.columns (finalKeyMap gen d k) (d.rows.getD i [])
        = d.rows.getD i [] := by
      unfold stepWith
      rw [if_pos hacc]
    rw [hstep0]
    exact hv
  · have hfirst' : firstOfferKey k d.columns d.rows
        (normAcc d.columns (d.rows.getD i [])) = some v := by
      rcases hfirst with h | h
      · exact absurd h hacc
      · exact h
    have hharv : kmFind (harvest k d.columns d.rows)
        (normAcc d.columns (d.rows.getD i [])) = some v := by
      rw [harvest_find k d.columns d.rows _ hacc]
      exact hfirst'
    have hM : kmFind (finalKeyMap gen d k)
        (normAcc d.columns (d.rows.getD i [])) = some v := by
      rw [hMdef]
      exact fillRows_find_mono gen k d.columns _ v d.rows _ hharv
    have hstep : stepWith k d.columns (finalKeyMap gen d k) (d.rows.getD i [])
        = setCell d.columns (d.rows.getD i []) k (Value.text v) := by
      unfold stepWith
      rw [if_neg hacc, hM]
      rfl
    rcases Option.isSome_iff_exists.mp ((colIndex_isSome_iff k d.columns).mpr hkmem)
      with ⟨ik, hik⟩
    have hlen : ik < (d.rows.getD i []).length :=
      hWFr ▸ colIndex_lt k d.columns ik hik
    rw [hstep, getCell_setCell_self d.columns (d.rows.getD i []) k
      (Value.text v) ik hik hlen]
    rw [← hv]
    exact normalize_value_stable _

/-- Witness for C2 (amended) at the pre-keyed record of the mixed
dataset. -/
theorem assign_keys_key_preserved_witness :
    normalize_value (getCell (assign_keys genConst dMix "Study_Key").columns
      ((assign_keys genConst dMix "Study_Key").rows.getD 3 []) "Study_Key")
      = "K7" :=
  assign_keys_key_preserved genConst dMix "Study_Key" 3
    (by unfold Dataset.WF; decide) (by decide) "K7" (by decide) (by decide)
    (Or.inr (by decide))

/-- Counterexample for C2 as stated: with two records sharing accession
`A` under distinct pre-existing keys `K1` and `K2`, the second record's
key cell holds the non-empty normalized value `K2` before the run but
`K1` after it. -/
theorem key_preservation_counterexample :
    normalize_value (getCell dDup.columns (dDup.rows.getD 1 []) "Study_Key")
      = "K2" ∧
    getCell (assign_keys genConst dDup "Study_Key").columns
        ((assign_keys genConst dDup "Study_Key").rows.getD 1 []) "Study_Key"
      = Value.text "K1" := by
  decide

/-- C3: the KeyMap invariant.  During one run (on the ensured dataset):
the harvested entry of every non-empty accession is exactly the first
non-empty normalized key found for it in row order; harvested entries are
never replaced by pass 2; an accession referenced by some row but without
a harvested key receives a freshly drawn generator value; each accession
is stored at most once; and, on a rectangular dataset, any two records
sharing the same non-empty normalized accession end the run with
identical key cells. -/
theorem keymap_invariant (gen : Nat → String) (d : Dataset) (k : String)
    (hWF : d.WF) :
    (∀ a : String, a ≠ "" →
      kmFind (harvest k (ensureKeyCol d k).columns (ensureKeyCol d k).rows) a
        = firstOfferKey k (ensureKeyCol d k).columns (ensureKeyCol d k).rows a) ∧
    (∀ a v : String,
      kmFind (harvest k (ensureKeyCol d k).columns (ensureKeyCol d k).rows) a
        = some v →
      kmFind (finalKeyMap gen d k) a = some v) ∧
    (∀ a : String, a ≠ "" →
      (∃ r ∈ (ensureKeyCol d k).rows, normAcc (ensureKeyCol d k).columns r = a) →
      kmFind (harvest k (ensureKeyCol d k).columns (ensureKeyCol d k).rows) a
        = none →
      ∃ n, kmFind (finalKeyMap gen d k) a = some (gen n)) ∧
    ((finalKeyMap gen d k).map Prod.fst).Nodup ∧
    (∀ i j : Nat,
      i < (ensureKeyCol d k).rows.length → j < (ensureKeyCol d k).rows.length →
      normAcc (ensureKeyCol d k).columns ((ensureKeyCol d k).rows.getD i [])
        = normAcc (ensureKeyCol d k).columns ((ensureKeyCol d k).rows.getD j []) →
      normAcc (ensureKeyCol d k).columns ((ensureKeyCol d k).rows.getD i []) ≠ "" →
      getCell (assign_keys gen d k).columns
          ((assign_keys gen d k).rows.getD i []) k
        = getCell (assign_keys gen d k).columns
            ((assign_keys gen d k).rows.getD j []) k) := by
  refine ⟨?_, ?_, ?_, ?_, ?_⟩
  · intro a ha
    exact harvest_find k (ensureKeyCol d k).columns (ensureKeyCol d k).rows a ha
  · intro a v h
    unfold finalKeyMap
    exact fillRows_find_mono gen k (ensureKeyCol d k).columns a v
      (ensureKeyCol d k).rows _ h
  · intro a ha hex hnone
    unfold finalKeyMap
    exact fillRows_find_new gen k (ensureKeyCol d k).columns a ha
      (ensureKeyCol d k).rows _ hnone hex
  · unfold finalKeyMap
    apply fillRows_nodup
    apply harvest_foldl_nodup
    simp
  · intro i j hi hj heq hne
    have hWFe : (ensureKeyCol d k).WF := ensure_WF d k hWF
    have hk : k ∈ (ensureKeyCol d k).columns := ensure_mem d k
    rcases Option.isSome_iff_exists.mp
      ((colIndex_isSome_iff k (ensureKeyCol d k).columns).mpr hk) with ⟨ik, hik⟩
    have hmem_i : (ensureKeyCol d k).rows.getD i [] ∈ (ensureKeyCol d k).rows :=
      getD_mem _ i [] hi
    have hmem_j : (ensureKeyCol d k).rows.getD j [] ∈ (ensureKeyCol d k).rows :=
      getD_mem _ j [] hj
    have hne_j : normAcc (ensureKeyCol d k).columns
        ((ensureKeyCol d k).rows.getD j []) ≠ "" := by
      rw [← heq]
      exact hne
    rcases fillRows_find_present gen k (ensureKeyCol d k).columns
      (ensureKeyCol d k).rows (harvest k (ensureKeyCol d k).columns
        (ensureKeyCol d k).rows, 0) _ hmem_i hne with ⟨w, hw⟩
    have hw' : kmFind (finalKeyMap gen d k)
        (normAcc (ensureKeyCol d k).columns ((ensureKeyCol d k).rows.getD i []))
        = some w := hw
    have hw_j : kmFind (finalKeyMap gen d k)
        (normAcc (ensureKeyCol d k).columns ((ensureKeyCol d k).rows.getD j []))
        = some w := by
      rw [← heq]
      exact hw'
    have hstep_i : stepWith k (ensureKeyCol d k).columns (finalKeyMap gen d k)
        ((ensureKeyCol d k).rows.getD i [])
        = setCell (ensureKeyCol d k).columns ((ensureKeyCol d k).rows.getD i [])
            k (Value.text w) := by
      unfold stepWith
      rw [if_neg hne, hw']
      rfl
    have hstep_j : stepWith k (ensureKeyCol d k).columns (finalKeyMap gen d k)
        ((ensureKeyCol d k).rows.getD j [])
        = setCell (ensureKeyCol d k).columns ((ensureKeyCol d k).rows.getD j [])
            k (Value.text w) := by
      unfold stepWith
      rw [if_neg hne_j, hw_j]
      rfl
    have hlen_i : ik < ((ensureKeyCol d k).rows.getD i []).length :=
      (hWFe _ hmem_i) ▸ colIndex_lt k (ensureKeyCol d k).columns ik hik
    have hlen_j : ik < ((ensureKeyCol d k).rows.getD j []).length :=
      (hWFe _ hmem_j) ▸ colIndex_lt k (ensureKeyCol d k).columns ik hik
    rw [assign_keys_columns, assign_keys_rows_map,
      getD_map _ (ensureKeyCol d k).rows i [] [] hi,
      getD_map _ (ensureKeyCol d k).rows j [] [] hj,
      hstep_i, hstep_j,
      getCell_setCell_self _ _ k (Value.text w) ik hik hlen_i,
      getCell_setCell_self _ _ k (Value.text w) ik hik hlen_j]

/-- Witness for C3: the harvested-entry equation at accession `B2` and
equal key cells for the two records sharing accession `A1`. -/
theorem keymap_invariant_witness :
    kmFind (harvest "Study_Key" (ensureKeyCol dMix "Study_Key").columns
        (ensureKeyCol dMix "Study_Key").rows) "B2"
      = firstOfferKey "Study_Key" (ensureKeyCol dMix "Study_Key").columns
          (ensureKeyCol dMix "Study_Key").rows "B2" ∧
    getCell (assign_keys genG dMix "Study_Key").columns
        ((assign_keys genG dMix "Study_Key").rows.getD 0 []) "Study_Key"
      = getCell (assign_keys genG dMix "Study_Key").columns
          ((assign_keys genG dMix "Study_Key").rows.getD 1 []) "Study_Key" :=
  ⟨(keymap_invariant genG dMix "Study_Key" (by unfold Dataset.WF; decide)).1
      "B2" (by decide),
   (keymap_invariant genG dMix "Study_Key" (by unfold Dataset.WF; decide)).2.2.2.2
      0 1 (by decide) (by decide) (by decide) (by decide)⟩

/-- C8: missing-column atomicity.  When `Accession` is absent both tools
fail with an error before processing any row: the embedded `main`s return
an error and produce no output dataset or CSV.  The FileValidator fails
likewise when any of its seven required columns is absent. -/
theorem missing_column_atomic (gen : Nat → String) (k : String) (fs : FS)
    (base : Path) (d : Dataset) (h : "Accession" ∉ d.columns) :
    (∃ msg, addMain gen d k = Except.error msg) ∧
    (∃ msg, checkMain fs base d = Except.error msg) ∧
    (∀ d' : Dataset, (∃ c ∈ requiredColumnsList, c ∉ d'.columns) →
      ∃ msg, checkMain fs base d' = Except.error msg) := by
  have hgen : ∀ d' : Dataset, (∃ c ∈ requiredColumnsList, c ∉ d'.columns) →
      ∃ msg, checkMain fs base d' = Except.error msg := by
    intro d' hex
    rcases hex with ⟨c, hc, hc'⟩
    refine ⟨"Missing required column(s)", ?_⟩
    unfold checkMain
    rw [if_neg ?hne]
    case hne =>
      intro heq
      have hcmem : c ∈ missingColumns d' := by
        unfold missingColumns
        apply List.mem_filter.mpr
        refine ⟨hc, ?_⟩
        simp only [Bool.not_eq_true']
        simpa using hc'
      rw [heq] at hcmem
      simp at hcmem
  refine ⟨⟨"Missing required column: Accession", ?_⟩, ?_, hgen⟩
  · unfold addMain
    rw [if_neg h]
  · exact hgen d ⟨"Accession", by simp [requiredColumnsList], h⟩

/-- Witness for C8 on a dataset without the `Accession` column. -/
theorem missing_column_atomic_witness :
    (∃ msg, addMain genConst dNoAcc "Study_Key" = Except.error msg) ∧
    (∃ msg, checkMain fsEx ["base"] dNoAcc = Except.error msg) :=
  ⟨(missing_column_atomic genConst "Study_Key" fsEx ["base"] dNoAcc (by decide)).1,
   (missing_column_atomic genConst "Study_Key" fsEx ["base"] dNoAcc (by decide)).2.1⟩

/-! ## FileValidator lemmas -/

/-- The name of a path ending in a file component. -/
theorem pathName_last (l : List String) (x : String) : pathName (l ++ [x]) = x := by
  unfold pathName
  induction l with
  | nil => rfl
  | cons a as ih =>
    cases has : as ++ [x] with
    | nil => exact absurd has (by simp)
    | cons b bs =>
      show ((a :: as) ++ [x]).getLastD "" = x
      rw [List.cons_append, has]
      have : (b :: bs).getLastD "" = (as ++ [x]).getLastD "" := by rw [has]
      calc (a :: b :: bs).getLastD "" = (b :: bs).getLastD "" := by
            simp [List.getLastD]
        _ = x := by rw [this]; exact ih

/-- The display name of `dcm_display_path` is the value, `.dcm`-appended
when not already present. -/
theorem pathName_display (base : Path) (accession v : String) :
    pathName (dcm_display_path base accession v)
      = if endsWithDcm v then v else v ++ ".dcm" := by
  unfold dcm_display_path
  by_cases h : endsWithDcm v
  · rw [if_pos h, if_pos h,
      show base ++ [accession, v] = (base ++ [accession]) ++ [v] by simp]
    exact pathName_last (base ++ [accession]) v
  · rw [if_neg h, if_neg h,
      show base ++ [accession, v ++ ".dcm"] = (base ++ [accession]) ++ [v ++ ".dcm"] by simp]
    exact pathName_last (base ++ [accession]) (v ++ ".dcm")

/-- Checked-count projection of the inner column loop. -/
theorem checkColumn_foldl_checked (fs : FS) (base : Path) (acc : String)
    (cols : List String) (row : List Value) :
    ∀ (cs : List String) (ch er : Nat) (orow : OutRow),
      (cs.foldl (checkColumn fs base acc cols row) (ch, er, orow)).1
        = ch + cs.countP (fun c => decide (normalize_value (getCell cols row c) ≠ "")) := by
  intro cs
  induction cs with
  | nil => intro ch er orow; simp
  | cons c0 cs ih =>
    intro ch er orow
    rw [List.foldl_cons, List.countP_cons]
    by_cases h0 : normalize_value (getCell cols row c0) = ""
    · have hstep : checkColumn fs base acc cols row (ch, er, orow) c0 = (ch, er, orow) := by
        simp only [checkColumn]
        rw [if_pos h0]
      rw [hstep, ih ch er orow]
      simp [h0]
    · by_cases hf : (candidate_paths base acc (normalize_value (getCell cols row c0))).any fs
      · have hstep : checkColumn fs base acc cols row (ch, er, orow) c0
            = (ch + 1, er, orSet orow c0 (pathName (dcm_display_path base acc
                (normalize_value (getCell cols row c0))))) := by
          simp only [checkColumn]
          rw [if_neg h0, if_pos hf]
        rw [hstep, ih]
        simp [h0]
        omega
      · have hstep : checkColumn fs base acc cols row (ch, er, orow) c0
            = (ch + 1, er + 1, orow) := by
          simp only [checkColumn]
          rw [if_neg h0, if_neg hf]
        rw [hstep, ih]
        simp [h0]
        omega

/-- Out-row projection of the inner column loop. -/
theorem checkColumn_foldl_orow (fs : FS) (base : Path) (acc : String)
    (cols : List String) (row : List Value) :
    ∀ (cs : List String) (ch er : Nat) (orow : OutRow),
      (cs.foldl (checkColumn fs base acc cols row) (ch, er, orow)).2.2
        = cs.foldl (applyCol fs base acc cols row) orow := by
  intro cs
  induction cs with
  | nil => intro ch er orow; rfl
  | cons c0 cs ih =>
    intro ch er orow
    rw [List.foldl_cons, List.foldl_cons]
    by_cases h0 : normalize_value (getCell cols row c0) = ""
    · have hstep : checkColumn fs base acc cols row (ch, er, orow) c0 = (ch, er, orow) := by
        simp only [checkColumn]
        rw [if_pos h0]
      have happ : applyCol fs base acc cols row orow c0 = orow := by
        simp only [applyCol]
        rw [if_pos h0]
      rw [hstep, happ, ih]
    · by_cases hf : (candidate_paths base acc (normalize_value (getCell cols row c0))).any fs
      · have hstep : checkColumn fs base acc cols row (ch, er, orow) c0
            = (ch + 1, er, orSet orow c0 (pathName (dcm_display_path base acc
                (normalize_value (getCell cols row c0))))) := by
          simp only [checkColumn]
          rw [if_neg h0, if_pos hf]
        have happ : applyCol fs base acc cols row orow c0
            = orSet orow c0 (pathName (dcm_display_path base acc
                (normalize_value (getCell cols row c0)))) := by
          simp only [applyCol]
          rw [if_neg h0, if_pos hf]
        rw [hstep, happ, ih]
      · have hstep : checkColumn fs base acc cols row (ch, er, orow) c0
            = (ch + 1, er + 1, orow) := by
          simp only [checkColumn]
          rw [if_neg h0, if_neg hf]
        have happ : applyCol fs base acc cols row orow c0 = orow := by
          simp only [applyCol]
          rw [if_neg h0, if_neg hf]
        rw [hstep, happ, ih]

/-- The inner loop is the identity when every column value is empty. -/
theorem checkColumn_foldl_skip (fs : FS) (base : Path) (acc : String)
    (cols : List String) (row : List Value) :
    ∀ (cs : List String) (st : Nat × Nat × OutRow),
      (∀ c ∈ cs, normalize_value (getCell cols row c) = "") →
      cs.foldl (checkColumn fs base acc cols row) st = st := by
  intro cs
  induction cs with
  | nil => intro st _; rfl
  | cons c0 cs ih =>
    intro st hall
    rw [List.foldl_cons]
    have hstep : checkColumn fs base acc cols row st c0 = st := by
      simp only [checkColumn]
      rw [if_pos (hall c0 (by simp))]
    rw [hstep]
    exact ih st (fun c hc => hall c (List.mem_cons_of_mem _ hc))

/-- `orSet` at one key leaves other keys unchanged. -/
theorem orGet_orSet_ne (c c' v : String) (h : c ≠ c') :
    ∀ r : OutRow, orGet (orSet r c v) c' = orGet r c' := by
  intro r
  induction r with
  | nil => rfl
  | cons p r ih =>
    obtain ⟨a, w⟩ := p
    by_cases hac : a = c
    · subst hac
      simp only [orSet, List.map_cons, if_pos rfl, ite_true]
      show orGet ((a, v) :: orSet r a v) c' = orGet ((a, w) :: r) c'
      simp only [orGet]
      rw [if_neg h, if_neg h]
      exact ih
    · simp only [orSet, List.map_cons, hac, if_neg, ite_false]
      show orGet ((a, w) :: orSet r c v) c' = orGet ((a, w) :: r) c'
      simp only [orGet]
      by_cases hac' : a = c'
      · rw [if_pos hac', if_pos hac']
      · rw [if_neg hac', if_neg hac']
        exact ih

/-- `applyCol` never touches the `Accession` entry. -/
theorem orGet_applyCol_accession (fs : FS) (base : Path) (acc : String)
    (cols : List String) (row : List Value) :
    ∀ (cs : List String) (orow : OutRow), (∀ c ∈ cs, c ≠ "Accession") →
      orGet (cs.foldl (applyCol fs base acc cols row) orow) "Accession"
        = orGet orow "Accession" := by
  intro cs
  induction cs with
  | nil => intro orow _; rfl
  | cons c0 cs ih =>
    intro orow hall
    rw [List.foldl_cons]
    rw [ih _ (fun c hc => hall c (List.mem_cons_of_mem _ hc))]
    simp only [applyCol]
    by_cases h0 : normalize_value (getCell cols row c0) = ""
    · rw [if_pos h0]
    · rw [if_neg h0]
      by_cases hf : (candidate_paths base acc (normalize_value (getCell cols row c0))).any fs
      · rw [if_pos hf]
        exact orGet_orSet_ne c0 "Accession" _ (hall c0 (by simp)) orow
      · rw [if_neg hf]

/-- The `Accession` entry of the freshly initialized out row. -/
theorem orGet_initOutRow_accession (a : String) :
    orGet (initOutRow a) "Accession" = a := rfl

/-- The image-column entries of the freshly initialized out row are
empty. -/
theorem orGet_initOutRow_col (a : String) :
    ∀ c ∈ columns_to_check, orGet (initOutRow a) c = "" := by
  intro c hc
  fin_cases hc <;> rfl

/-- The `Accession` cell of a produced output row is the record's
normalized accession. -/
theorem orGet_outRowOf_accession (fs : FS) (base : Path) (cols : List String)
    (row : List Value) :
    orGet (outRowOf fs base cols row) "Accession" = normAcc cols row := by
  unfold outRowOf
  rw [orGet_applyCol_accession fs base _ cols row columns_to_check _
    (by intro c hc; fin_cases hc <;> decide)]
  exact orGet_initOutRow_accession _

/-- One outer-loop step, in terms of the record's contribution. -/
theorem processRow_spec (fs : FS) (base : Path) (cols : List String)
    (st : CheckState) (row : List Value) :
    (processRow fs base cols st row).checkedCount
        = st.checkedCount + (if normAcc cols row = "" then 0
            else columns_to_check.countP
              (fun c => decide (normalize_value (getCell cols row c) ≠ ""))) ∧
    (processRow fs base cols st row).outRows
        = st.outRows ++ (if hasAccession cols row
            then [outRowOf fs base cols row] else []) := by
  by_cases h : normAcc cols row = ""
  · have hid : processRow fs base cols st row = st := by
      unfold processRow
      rw [if_pos h]
    have hq : hasAccession cols row = false := by
      simp [hasAccession, h]
    rw [hid, hq]
    simp [h]
  · have e1 : (processRow fs base cols st row).checkedCount
        = (columns_to_check.foldl (checkColumn fs base (normAcc cols row) cols row)
            (st.checkedCount, st.errorCount, initOutRow (normAcc cols row))).1 := by
      unfold processRow
      rw [if_neg h]
    have e2 : (processRow fs base cols st row).outRows
        = st.outRows ++ [(columns_to_check.foldl
            (checkColumn fs base (normAcc cols row) cols row)
            (st.checkedCount, st.errorCount, initOutRow (normAcc cols row))).2.2] := by
      unfold processRow
      rw [if_neg h]
    have hq : hasAccession cols row = true := by
      simp [hasAccession, h]
    constructor
    · rw [e1, if_neg h, checkColumn_foldl_checked]
    · rw [e2, checkColumn_foldl_orow, hq, if_pos rfl]
      rfl

/-- The outer loop accumulates contributions across rows. -/
theorem foldl_processRow_spec (fs : FS) (base : Path) (cols : List String) :
    ∀ (rs : List (List Value)) (st : CheckState),
      (rs.foldl (processRow fs base cols) st).checkedCount
          = st.checkedCount + (rs.map (rowCheckedCount cols)).sum ∧
      (rs.foldl (processRow fs base cols) st).outRows
          = st.outRows ++ (rs.filter (hasAccession cols)).map (outRowOf fs base cols) := by
  intro rs
  induction rs with
  | nil => intro st; simp
  | cons r rs ih =>
    intro st
    rw [List.foldl_cons]
    rcases ih (processRow fs base cols st r) with ⟨ihc, iho⟩
    rcases processRow_spec fs base cols st r with ⟨hc, ho⟩
    constructor
    · rw [ihc, hc, List.map_cons, List.sum_cons]
      unfold rowCheckedCount
      omega
    · rw [iho, ho, List.filter_cons]
      by_cases hq : hasAccession cols r
      · rw [if_pos hq]
        simp [hq]
      · rw [if_neg hq]
        simp [hq, Bool.eq_false_iff.mpr hq]

/-- The checked counter of a completed run counts exactly the non-empty
image cells of records with a non-empty accession. -/
theorem validate_checked (fs : FS) (base : Path) (d : Dataset) :
    (validate fs base d).checkedCount = checkedCountSpec d := by
  show (d.rows.foldl (processRow fs base d.columns) ⟨0, 0, []⟩).checkedCount = _
  rw [(foldl_processRow_spec fs base d.columns d.rows ⟨0, 0, []⟩).1]
  show 0 + (d.rows.map (rowCheckedCount d.columns)).sum = _
  rw [Nat.zero_add]
  rfl

/-- The output rows of a completed run are the per-record rows of the
qualifying records, in order. -/
theorem validate_outRows (fs : FS) (base : Path) (d : Dataset) :
    (validate fs base d).outRows
      = (d.rows.filter (hasAccession d.columns)).map (outRowOf fs base d.columns) := by
  show (d.rows.foldl (processRow fs base d.columns) ⟨0, 0, []⟩).outRows = _
  rw [(foldl_processRow_spec fs base d.columns d.rows ⟨0, 0, []⟩).2]
  show [] ++ _ = _
  rw [List.nil_append]

/-- `applyCol` over columns with all-empty values changes nothing. -/
theorem applyCol_foldl_skip (fs : FS) (base : Path) (acc : String)
    (cols : List String) (row : List Value) :
    ∀ (cs : List String) (orow : OutRow),
      (∀ c ∈ cs, normalize_value (getCell cols row c) = "") →
      cs.foldl (applyCol fs base acc cols row) orow = orow := by
  intro cs
  induction cs with
  | nil => intro orow _; rfl
  | cons c0 cs ih =>
    intro orow hall
    rw [List.foldl_cons]
    have hstep : applyCol fs base acc cols row orow c0 = orow := by
      simp only [applyCol]
      rw [if_pos (hall c0 (by simp))]
    rw [hstep]
    exact ih orow (fun c hc => hall c (List.mem_cons_of_mem _ hc))

/-- C5: candidate resolution and display name.  For a non-empty
normalized image value: when it already ends in `.dcm`
(case-insensitively) the sole candidate is `base/accession/value`,
otherwise exactly the two candidates `base/accession/value.dcm` and
`base/accession/value` are tried; the display name is always the value
with `.dcm` appended when not already present; and the inner loop step
reports the column found (writing the display name into the out row) iff
some candidate exists, counting it as checked either way. -/
theorem candidate_resolution (base : Path) (accession v : String) (fs : FS)
    (cols : List String) (row : List Value) (c : String)
    (st : Nat × Nat × OutRow)
    (hv : normalize_value (getCell cols row c) = v) (hne : v ≠ "") :
    (endsWithDcm v = true →
      candidate_paths base accession v = [base ++ [accession, v]] ∧
      pathName (dcm_display_path base accession v) = v) ∧
    (endsWithDcm v = false →
      candidate_paths base accession v
        = [base ++ [accession, v ++ ".dcm"], base ++ [accession, v]] ∧
      pathName (dcm_display_path base accession v) = v ++ ".dcm") ∧
    (checkColumn fs base accession cols row st c
      = if (candidate_paths base accession v).any fs
        then (st.1 + 1, st.2.1,
              orSet st.2.2 c (pathName (dcm_display_path base accession v)))
        else (st.1 + 1, st.2.1 + 1, st.2.2)) := by
  refine ⟨?_, ?_, ?_⟩
  · intro h
    constructor
    · unfold candidate_paths
      rw [if_pos h]
    · rw [pathName_display, if_pos h]
  · intro h
    constructor
    · unfold candidate_paths
      rw [if_neg (by simp [h])]
    · rw [pathName_display, if_neg (by simp [h])]
  · simp only [checkColumn]
    rw [hv, if_neg hne]

/-- Witness for C5 at the extensionless value `IMG1` of the sample
dataset, with the file present on the sample filesystem. -/
theorem candidate_resolution_witness :
    (candidate_paths ["base"] "A" "IMG1"
        = [["base", "A", "IMG1.dcm"], ["base", "A", "IMG1"]] ∧
      pathName (dcm_display_path ["base"] "A" "IMG1") = "IMG1" ++ ".dcm") ∧
    checkColumn fsEx ["base"] "A" dCheck.columns (dCheck.rows.getD 0 [])
        (0, 0, initOutRow "A") "AP_1"
      = if (candidate_paths ["base"] "A" "IMG1").any fsEx
        then (0 + 1, 0,
              orSet (initOutRow "A") "AP_1" (pathName (dcm_display_path ["base"] "A" "IMG1")))
        else (0 + 1, 0 + 1, initOutRow "A") := by
  have h := candidate_resolution ["base"] "A" "IMG1" fsEx dCheck.columns
    (dCheck.rows.getD 0 []) "AP_1" (0, 0, initOutRow "A") (by decide) (by decide)
  exact ⟨h.2.1 (by decide), h.2.2⟩

/-- C6: counts and exit status.  The checked counter equals the number of
(record with non-empty accession, image column) pairs with a non-empty
normalized value, regardless of file existence; the run exits with status
1 iff the missing-file counter is positive and with status 0 iff it is
zero; and when no required column is missing, `main` returns exactly this
outcome. -/
theorem counts_and_exit (fs : FS) (base : Path) (d : Dataset) :
    (validate fs base d).checkedCount = checkedCountSpec d ∧
    ((validate fs base d).exitCode = 1 ↔ 0 < (validate fs base d).errorCount) ∧
    ((validate fs base d).exitCode = 0 ↔ (validate fs base d).errorCount = 0) ∧
    (missingColumns d = [] → checkMain fs base d = Except.ok (validate fs base d)) := by
  have he : (validate fs base d).exitCode
      = if (validate fs base d).errorCount = 0 then 0 else 1 := rfl
  refine ⟨validate_checked fs base d, ?_, ?_, ?_⟩
  · rw [he]
    by_cases h0 : (validate fs base d).errorCount = 0
    · rw [if_pos h0]
      simp [h0]
    · rw [if_neg h0]
      simp [Nat.pos_of_ne_zero h0]
  · rw [he]
    by_cases h0 : (validate fs base d).errorCount = 0
    · rw [if_pos h0]
      simp [h0]
    · rw [if_neg h0]
      simp [h0]
  · intro h
    unfold checkMain
    rw [if_pos h]

/-- Witness for C6 on the sample dataset and filesystem (one of three
referenced files missing). -/
theorem counts_and_exit_witness :
    (validate fsEx ["base"] dCheck).checkedCount = checkedCountSpec dCheck ∧
    ((validate fsEx ["base"] dCheck).exitCode = 1 ↔
      0 < (validate fsEx ["base"] dCheck).errorCount) ∧
    checkMain fsEx ["base"] dCheck = Except.ok (validate fsEx ["base"] dCheck) :=
  ⟨(counts_and_exit fsEx ["base"] dCheck).1,
   (counts_and_exit fsEx ["base"] dCheck).2.1,
   (counts_and_exit fsEx ["base"] dCheck).2.2.2 (by decide)⟩

/-- C7: output shape.  One output row is collected per record with a
non-empty normalized accession; whenever any rows were collected the CSV
is written with the fixed header `Accession, AP_1, AP_2, AP_3, Lateral_1,
Lateral_2, Lateral_3` (each data line laid out in that column order,
independent of the input column order); and the `i`-th output row carries
the normalized accession of the `i`-th qualifying record. -/
theorem output_shape (fs : FS) (base : Path) (d : Dataset) :
    (validate fs base d).outRows.length = d.rows.countP (hasAccession d.columns) ∧
    ((validate fs base d).outRows ≠ [] →
      (validate fs base d).csv
        = some (outHeader :: (validate fs base d).outRows.map
            (fun r => outHeader.map (orGet r)))) ∧
    (∀ tbl, (validate fs base d).csv = some tbl → tbl.head? = some outHeader) ∧
    (∀ i, i < (validate fs base d).outRows.length →
      orGet ((validate fs base d).outRows.getD i []) "Accession"
        = normAcc d.columns ((d.rows.filter (hasAccession d.columns)).getD i [])) := by
  have hout := validate_outRows fs base d
  have hcsv : (validate fs base d).csv
      = if (validate fs base d).outRows.isEmpty then none
        else some (outHeader :: (validate fs base d).outRows.map
          (fun r => outHeader.map (orGet r))) := rfl
  refine ⟨?_, ?_, ?_, ?_⟩
  · rw [hout, List.length_map, List.countP_eq_length_filter]
  · intro hne
    rw [hcsv, if_neg (by simpa using hne)]
  · intro tbl htbl
    rw [hcsv] at htbl
    by_cases hie : (validate fs base d).outRows.isEmpty
    · rw [if_pos hie] at htbl
      exact absurd htbl (by simp)
    · rw [if_neg hie] at htbl
      rw [← Option.some_inj.mp htbl]
      rfl
  · intro i hi
    rw [hout] at hi ⊢
    rw [List.length_map] at hi
    rw [getD_map _ _ i [] [] hi]
    exact orGet_outRowOf_accession fs base d.columns _

/-- Witness for C7 on the sample dataset. -/
theorem output_shape_witness :
    (validate fsEx ["base"] dCheck).outRows.length
        = dCheck.rows.countP (hasAccession dCheck.columns) ∧
    (∀ tbl, (validate fsEx ["base"] dCheck).csv = some tbl →
      tbl.head? = some outHeader) ∧
    orGet ((validate fsEx ["base"] dCheck).outRows.getD 0 []) "Accession"
      = normAcc dCheck.columns
          ((dCheck.rows.filter (hasAccession dCheck.columns)).getD 0 []) :=
  ⟨(output_shape fsEx ["base"] dCheck).1,
   (output_shape fsEx ["base"] dCheck).2.2.1,
   (output_shape fsEx ["base"] dCheck).2.2.2 0 (by decide)⟩

/-- C10: a record with non-empty accession and all six image columns
empty still contributes an output row — its accession plus six empty
cells — leaving the checked and missing counters untouched; the row
participates in the written CSV (which therefore exists). -/
theorem empty_image_columns_row (fs : FS) (base : Path) (d : Dataset)
    (st : CheckState) (i : Nat) (hi : i < d.rows.length)
    (hacc : normAcc d.columns (d.rows.getD i []) ≠ "")
    (hempty : ∀ c ∈ columns_to_check,
      normalize_value (getCell d.columns (d.rows.getD i []) c) = "") :
    processRow fs base d.columns st (d.rows.getD i [])
        = { errorCount := st.errorCount, checkedCount := st.checkedCount,
            outRows := st.outRows
              ++ [initOutRow (normAcc d.columns (d.rows.getD i []))] } ∧
    orGet (initOutRow (normAcc d.columns (d.rows.getD i []))) "Accession"
        = normAcc d.columns (d.rows.getD i []) ∧
    (∀ c ∈ columns_to_check,
      orGet (initOutRow (normAcc d.columns (d.rows.getD i []))) c = "") ∧
    initOutRow (normAcc d.columns (d.rows.getD i []))
        ∈ (validate fs base d).outRows ∧
    (validate fs base d).csv ≠ none := by
  have hrow : processRow fs base d.columns st (d.rows.getD i [])
      = { errorCount := st.errorCount, checkedCount := st.checkedCount,
          outRows := st.outRows
            ++ [initOutRow (normAcc d.columns (d.rows.getD i []))] } := by
    unfold processRow
    rw [if_neg hacc,
      checkColumn_foldl_skip fs base _ d.columns _ columns_to_check _ hempty]
  have houtrow : outRowOf fs base d.columns (d.rows.getD i [])
      = initOutRow (normAcc d.columns (d.rows.getD i [])) := by
    unfold outRowOf
    exact applyCol_foldl_skip fs base _ d.columns _ columns_to_check _ hempty
  have hmem : initOutRow (normAcc d.columns (d.rows.getD i []))
      ∈ (validate fs base d).outRows := by
    rw [validate_outRows, ← houtrow]
    exact List.mem_map_of_mem _ (List.mem_filter.mpr
      ⟨getD_mem d.rows i [] hi,
       by simp only [hasAccession, decide_eq_true_eq]; exact hacc⟩)
  have hne : (validate fs base d).outRows ≠ [] := by
    intro h0
    rw [h0] at hmem
    simp at hmem
  have hie : (validate fs base d).outRows.isEmpty = false := by
    cases h : (validate fs base d).outRows.isEmpty
    · rfl
    · exact absurd (List.isEmpty_iff.mp h) hne
  have hcsv : (validate fs base d).csv ≠ none := by
    have e : (validate fs base d).csv
        = if (validate fs base d).outRows.isEmpty then none
          else some (outHeader :: (validate fs base d).outRows.map
            (fun r => outHeader.map (orGet r))) := rfl
    rw [e, hie]
    simp
  exact ⟨hrow, orGet_initOutRow_accession _, orGet_initOutRow_col _, hmem, hcsv⟩

/-- Witness for C10 at the all-empty record `B` of the sample dataset. -/
theorem empty_image_columns_row_witness :
    processRow fsEx ["base"] dCheck.columns
        { errorCount := 7, checkedCount := 5, outRows := [] }
        (dCheck.rows.getD 2 [])
      = { errorCount := 7, checkedCount := 5,
          outRows := [] ++ [initOutRow (normAcc dCheck.columns (dCheck.rows.getD 2 []))] } ∧
    (validate fsEx ["base"] dCheck).csv ≠ none := by
  have h := empty_image_columns_row fsEx ["base"] dCheck
    { errorCount := 7, checkedCount := 5, outRows := [] } 2
    (by decide) (by decide) (by decide)
  exact ⟨h.1, h.2.2.2.2⟩

end OccluNet
